import Mathlib

/-!
# Verification of the Kaldi/Idlak online pitch tracker (feat/pitch-functions.cc)

This file gives a shallow embedding, in Lean 4, of the numeric and
combinatorial core of `src/feat/pitch-functions.cc`, and proves (or refutes)
the specification claims about it.

Modelling conventions:
* `BaseFloat` values are modelled as exact numbers: `ℝ` for the analytic maps
  (`NccfToPovFeature`, `ComputeNccf`, which use `pow`/`sqrt`), and `ℚ` for the
  combinatorial algorithms (Viterbi search, traceback, latency, moving-window
  normalization), so that concrete runs are decidable.
* Kaldi vectors are Lean lists; out-of-range reads use `List.getD` with
  default 0 only where the C++ code itself guarantees in-range access.
* The external collaborators (`LinearResample`, `ArbitraryResample`) are out
  of scope per the specification; their outputs enter the model as inputs.
-/

namespace PitchSpec

/-- Clipping of an NCCF value to `[-1, 1]`, as done at the start of
`NccfToPovFeature` (pitch-functions.cc lines 119-123). -/
noncomputable def clipNccf (n : ℝ) : ℝ :=
  if n > 1 then 1 else if n < -1 then -1 else n

/-- `NccfToPovFeature` (pitch-functions.cc lines 118-127):
`f = (1.0001 - clip(n)) ^ 0.15 - 1.0`. -/
noncomputable def nccfToPovFeature (n : ℝ) : ℝ :=
  (1.0001 - clipNccf n) ^ (0.15 : ℝ) - 1.0

/-! ## C6: `ComputeNccf` (pitch-functions.cc lines 205-224) -/

/-- One lag of `ComputeNccf` (pitch-functions.cc lines 211-222).
The denominator is `pow(norm_prod + nccf_ballast, 0.5)`; a `KALDI_ASSERT`
failure (fatal error) is modelled as `none`.  The final range assert
`nccf < 1.01 && nccf > -1.01` is included. -/
noncomputable def computeNccfLag (innerProd normProd nccfBallast : ℝ) : Option ℝ :=
  let denominator := (normProd + nccfBallast) ^ (0.5 : ℝ)
  if denominator ≠ 0 then
    let nccf := innerProd / denominator
    if nccf < 1.01 ∧ -1.01 < nccf then some nccf else none
  else
    if innerProd = 0 then some (0 : ℝ) else none

/-! ## C8: `SelectLags` (pitch-functions.cc lines 231-241) -/

/-- The loop of `SelectLags` (pitch-functions.cc line 237):
`for (lag = min_lag; lag <= max_lag; lag *= 1.0 + delta_pitch) push(lag)`.
The C++ loop terminates because the ratio exceeds one; the Lean recursion is
driven by an explicit fuel argument, chosen large enough in `selectLags`. -/
def selectLagsLoop (maxLag ratio : ℚ) : ℕ → ℚ → List ℚ
  | 0, _ => []
  | fuel + 1, lag =>
      if lag ≤ maxLag then lag :: selectLagsLoop maxLag ratio fuel (lag * ratio)
      else []

/-- `SelectLags` (pitch-functions.cc lines 231-241): lags from `1/max_f0` to
`1/min_f0` in a geometric progression with ratio `1 + delta_pitch`. -/
def selectLags (minF0 maxF0 deltaPitch : ℚ) : List ℚ :=
  let minLag := 1 / maxF0
  let maxLag := 1 / minF0
  selectLagsLoop maxLag (1 + deltaPitch) ((⌈maxLag / (minLag * deltaPitch)⌉).toNat + 1) minLag

/-! ## C7: `ComputeCorrelation` (pitch-functions.cc lines 176-196) -/

/-- Kaldi `VecVec`: dot product of two windows. -/
def vecVec (xs ys : List ℚ) : ℚ := (List.zipWith (· * ·) xs ys).sum

/-- Kaldi `SubVector(v, offset, length)`. -/
def subVector (xs : List ℚ) (off len : ℕ) : List ℚ := (xs.drop off).take len

/-- `ComputeCorrelation` (pitch-functions.cc lines 176-196).  The mean of the
first `nccf_window_size` samples is subtracted from the whole window
(`zero_mean_wave.Add(-wave_part.Sum()/nccf_window_size)`), then for each
lag in `[first_lag, last_lag]` the dot products `inner_prod` and
`norm_prod = e1 * e2` are produced. -/
def computeCorrelation (wave : List ℚ) (firstLag lastLag nccfWindowSize : ℕ) :
    List ℚ × List ℚ :=
  let mean := (subVector wave 0 nccfWindowSize).sum / (nccfWindowSize : ℚ)
  let zeroMeanWave := wave.map (fun x => x - mean)
  let subVec1 := subVector zeroMeanWave 0 nccfWindowSize
  let e1 := vecVec subVec1 subVec1
  ((List.range (lastLag + 1 - firstLag)).map (fun k =>
      vecVec subVec1 (subVector zeroMeanWave (firstLag + k) nccfWindowSize)),
   (List.range (lastLag + 1 - firstLag)).map (fun k =>
      e1 * vecVec (subVector zeroMeanWave (firstLag + k) nccfWindowSize)
                  (subVector zeroMeanWave (firstLag + k) nccfWindowSize)))

/-! ## Viterbi search: `PitchFrameInfo::ComputeBacktraces`
(pitch-functions.cc lines 460-636)

The per-state data of the bounded search: `bp`/`tfc` are the current
backpointer and forward-cost (`state_info_[i].backpointer` and
`this_forward_cost[i]`), `lo`/`hi` the bounds `bounds[i].first/.second`. -/

structure SearchSt where
  bp : ℕ
  tfc : ℚ
  lo : ℕ
  hi : ℕ
deriving DecidableEq, Repr

instance : Inhabited SearchSt := ⟨⟨0, 0, 0, 0⟩⟩

/-- `ComputeLocalCost` (pitch-functions.cc lines 331-344):
`local_cost = 1 - nccf + soft_min_f0 · lags ⊙ nccf`. -/
def computeLocalCost (softMinF0 : ℚ) (nccfPitch lags : List ℚ) : List ℚ :=
  List.zipWith (fun n l => 1 - n + softMinF0 * l * n) nccfPitch lags

/-- The transition cost `(j-i)·(j-i)·inter_frame_factor + prev_forward_cost[j]`
(pitch-functions.cc lines 498-499 and identical expressions in the bounded
branch). -/
def transCost (interFrameFactor : ℚ) (prev : List ℚ) (i j : ℕ) : ℚ :=
  ((j : ℚ) - (i : ℚ)) * ((j : ℚ) - (i : ℚ)) * interFrameFactor + prev.getD j 0

/-- The naive inner loop (pitch-functions.cc lines 497-504): scan all `j`,
keeping the first strict minimum.  `best_cost` starts at `+∞`, so the first
iteration always updates; the scan here starts after that first iteration. -/
def naiveScan (c : ℕ → ℚ) : ℕ → ℕ → ℕ → ℚ → ℕ × ℚ
  | 0, _, bj, bc => (bj, bc)
  | fuel + 1, j, bj, bc =>
      if c j < bc then naiveScan c fuel (j + 1) j (c j)
      else naiveScan c fuel (j + 1) bj bc

/-- One state of the naive `O(L²)` branch (pitch-functions.cc lines 494-507). -/
def naiveRow (c : ℕ → ℚ) (numStates : ℕ) : ℕ × ℚ :=
  naiveScan c (numStates - 1) 1 0 (c 0)

/-- The first-pass scan (pitch-functions.cc lines 516-525): scan increasing
`j`, breaking at the first non-improvement. -/
def scanUpBreak (c : ℕ → ℚ) : ℕ → ℕ → ℕ → ℚ → ℕ × ℚ
  | 0, _, bj, bc => (bj, bc)
  | fuel + 1, j, bj, bc =>
      if c j < bc then scanUpBreak c fuel (j + 1) j (c j)
      else (bj, bc)

/-- Pass 0 of the bounded search (pitch-functions.cc lines 509-533), walking
`i` upward with `last_backpointer` chaining; `rem` counts remaining states. -/
def pass0Loop (c : ℕ → ℕ → ℚ) (numStates : ℕ) : ℕ → ℕ → ℕ → List SearchSt
  | 0, _, _ => []
  | rem + 1, i, lastBp =>
      let bc0 := c i lastBp
      let r := scanUpBreak (c i) (numStates - (lastBp + 1)) (lastBp + 1) lastBp bc0
      ⟨r.1, r.2, r.1, numStates - 1⟩ :: pass0Loop c numStates rem (i + 1) r.1

/-- The downward scan of an even (backward) refinement pass
(pitch-functions.cc lines 564-576): scan decreasing `j`; on a
non-improvement stop only if the current best lies above `j`. -/
def scanDownBreak (c : ℕ → ℚ) : ℕ → ℕ → ℕ → ℚ → ℕ × ℚ
  | 0, _, bj, bc => (bj, bc)
  | fuel + 1, j, bj, bc =>
      if c j < bc then scanDownBreak c fuel (j - 1) j (c j)
      else if bj > j then (bj, bc)
      else scanDownBreak c fuel (j - 1) bj bc

/-- The upward scan of an odd (forward) refinement pass
(pitch-functions.cc lines 607-619): scan increasing `j`; on a
non-improvement stop only if the current best lies below `j`. -/
def scanUpBreak2 (c : ℕ → ℚ) : ℕ → ℕ → ℕ → ℚ → ℕ × ℚ
  | 0, _, bj, bc => (bj, bc)
  | fuel + 1, j, bj, bc =>
      if c j < bc then scanUpBreak2 c fuel (j + 1) j (c j)
      else if bj < j then (bj, bc)
      else scanUpBreak2 c fuel (j + 1) bj bc

/-- An even (backward) refinement pass (pitch-functions.cc lines 543-585).
The list holds the states in descending index order (head is state `i`). -/
def backwardAux (c : ℕ → ℕ → ℚ) : ℕ → ℕ → Bool → List SearchSt → List SearchSt × Bool
  | _, _, ch, [] => ([], ch)
  | i, lastBp, ch, st :: rest =>
      let lower := st.lo
      let upper := min lastBp st.hi
      if upper = lower then
        let r := backwardAux c (i - 1) lower ch rest
        (st :: r.1, r.2)
      else if st.bp = upper then
        let r := backwardAux c (i - 1) st.bp ch rest
        (st :: r.1, r.2)
      else
        let s := scanDownBreak (c i) (upper - (lower + 1)) upper st.bp st.tfc
        let st' := if s.1 ≠ st.bp then SearchSt.mk s.1 s.2 st.lo s.1
                   else SearchSt.mk st.bp st.tfc st.lo s.1
        let r := backwardAux c (i - 1) s.1 (ch || decide (s.1 ≠ st.bp)) rest
        (st' :: r.1, r.2)

/-- An odd (forward) refinement pass (pitch-functions.cc lines 586-628).
The list holds the states in ascending index order (head is state `i`). -/
def forwardAux (c : ℕ → ℕ → ℚ) : ℕ → ℕ → Bool → List SearchSt → List SearchSt × Bool
  | _, _, ch, [] => ([], ch)
  | i, lastBp, ch, st :: rest =>
      let lower := max lastBp st.lo
      let upper := st.hi
      if upper = lower then
        let r := forwardAux c (i + 1) lower ch rest
        (st :: r.1, r.2)
      else if st.bp = lower then
        let r := forwardAux c (i + 1) st.bp ch rest
        (st :: r.1, r.2)
      else
        let s := scanUpBreak2 (c i) (upper - 1 - lower) lower st.bp st.tfc
        let st' := if s.1 ≠ st.bp then SearchSt.mk s.1 s.2 s.1 st.hi
                   else SearchSt.mk st.bp st.tfc s.1 st.hi
        let r := forwardAux c (i + 1) s.1 (ch || decide (s.1 ≠ st.bp)) rest
        (st' :: r.1, r.2)

/-- The refinement loop (pitch-functions.cc lines 541-632): alternate
backward (even `iter`) and forward (odd `iter`) passes, stopping after a
pass with no change, for at most `num_states` passes. -/
def refineLoop (c : ℕ → ℕ → ℚ) (numStates : ℕ) : ℕ → ℕ → List SearchSt → List SearchSt
  | 0, _, states => states
  | fuel + 1, iter, states =>
      let r :=
        if iter % 2 = 0 then
          let b := backwardAux c (numStates - 1) (numStates - 1) false states.reverse
          (b.1.reverse, b.2)
        else forwardAux c 0 0 false states
      if r.2 then refineLoop c numStates fuel (iter + 1) r.1 else r.1

/-- Whether the refinement loop of the bounded search exits through its
no-change test within the given fuel (pitch-functions.cc lines 631-632):
this mirrors `refineLoop` step by step and returns `true` exactly when
some pass reports no change before the iteration cap is reached. -/
def refineLoopCheck (c : ℕ → ℕ → ℚ) (numStates : ℕ) : ℕ → ℕ → List SearchSt → Bool
  | 0, _, _ => false
  | fuel + 1, iter, states =>
      let r :=
        if iter % 2 = 0 then
          let b := backwardAux c (numStates - 1) (numStates - 1) false states.reverse
          (b.1.reverse, b.2)
        else forwardAux c 0 0 false states
      if r.2 then refineLoopCheck c numStates fuel (iter + 1) r.1 else true

/-- `PitchFrameInfo::ComputeBacktraces` (pitch-functions.cc lines 460-636):
returns the backpointers and the forward-cost vector (local cost added at
the end, line 635).  `useNaive` is the global `pitch_use_naive_search`
toggle (line 446/492). -/
def computeBacktraces (useNaive : Bool) (interFrameFactor softMinF0 : ℚ)
    (nccfPitch lags prevForwardCost : List ℚ) : List ℤ × List ℚ :=
  let numStates := nccfPitch.length
  let localCost := computeLocalCost softMinF0 nccfPitch lags
  let c := transCost interFrameFactor prevForwardCost
  if useNaive then
    let results := (List.range numStates).map (fun i => naiveRow (c i) numStates)
    (results.map (fun r => (r.1 : ℤ)),
     List.zipWith (fun r l => r.2 + l) results localCost)
  else
    let states0 := pass0Loop c numStates numStates 0 0
    let states := refineLoop c numStates numStates 0 states0
    (states.map (fun st => (st.bp : ℤ)),
     List.zipWith (fun st l => st.tfc + l) states localCost)

/-! ## Frame chain, traceback and latency
(`PitchFrameInfo`, pitch-functions.cc lines 348-696)

The chain is stored newest-frame-first: the head is the most recent frame
and the last element is the synthetic frame `-1`; walking the list follows
the `prev_info_` pointers.  `lag_nccf_` is stored in the same order (head =
entry of the newest frame), so the iterator decrements of `SetBestState`
become structural recursion. -/

/-- `PitchFrameInfo::StateInfo` (pitch-functions.cc lines 417-425);
default-constructed as `backpointer = 0, pov_nccf = 0`. -/
structure StateInfo where
  backpointer : ℤ
  povNccf : ℚ
deriving DecidableEq, Repr

instance : Inhabited StateInfo := ⟨⟨0, 0⟩⟩

/-- One `PitchFrameInfo` record (pitch-functions.cc lines 351-436), without
the `prev_info_` pointer (represented by list order). -/
structure FrameInfo where
  stateInfo : List StateInfo
  stateOffset : ℤ
  curBestState : ℤ
deriving DecidableEq, Repr

instance : Inhabited FrameInfo := ⟨⟨[], 0, -1⟩⟩

/-- Following one backpointer:
`state_info_[state - state_offset_].backpointer`. -/
def mapState (fi : FrameInfo) (s : ℤ) : ℤ :=
  (fi.stateInfo.getD (s - fi.stateOffset).toNat default).backpointer

/-- `PitchFrameInfo::SetBestState` (pitch-functions.cc lines 638-659).
Walks the chain from the newest frame, rewriting `cur_best_state_` and the
`lag_nccf_` entries, stopping as soon as the proposed state equals the
stored `cur_best_state_`; nothing is written for frame `-1` (whose
`prev_info_` is null, i.e. whose tail is `[]`). -/
def setBestState : ℤ → List FrameInfo → List (ℤ × ℚ) →
    List FrameInfo × List (ℤ × ℚ)
  | _, [], buf => ([], buf)
  | best, fi :: rest, buf =>
      if best = fi.curBestState then (fi :: rest, buf)
      else
        let si := fi.stateInfo.getD (best - fi.stateOffset).toNat default
        let fi2 := FrameInfo.mk fi.stateInfo fi.stateOffset best
        match rest with
        | [] => (fi2 :: rest, buf)
        | r :: rs =>
            let out := setBestState si.backpointer (r :: rs) buf.tail
            (fi2 :: out.1, (best, si.povNccf) :: out.2)

/-- The walk of `PitchFrameInfo::ComputeLatency`
(pitch-functions.cc lines 676-690). -/
def latencyLoop (maxLatency : ℤ) : ℤ → ℤ → ℕ → List FrameInfo → ℕ
  | _, _, lat, [] => lat
  | minLiving, maxLiving, lat, fi :: rest =>
      if (lat : ℤ) < maxLatency then
        let mn := mapState fi minLiving
        let mx := mapState fi maxLiving
        if mn = mx then lat
        else
          match rest with
          | [] => lat
          | r :: rs => latencyLoop maxLatency mn mx (lat + 1) (r :: rs)
      else lat

/-- `PitchFrameInfo::ComputeLatency` (pitch-functions.cc lines 662-692),
called on the newest frame; `numStates` is `state_info_.size()`. -/
def computeLatency (maxLatency : ℤ) (numStates : ℕ) (chain : List FrameInfo) : ℕ :=
  if maxLatency ≤ 0 then 0
  else latencyLoop maxLatency 0 ((numStates : ℤ) - 1) 0 chain

/-! ## Stream orchestrator (`OnlinePitchFeatureImpl`,
pitch-functions.cc lines 704-1134) -/

/-- The options and derived constants the orchestrator logic reads.
`nccfWindowSize`/`nccfWindowShift` are `opts_.NccfWindowSize()` and
`opts_.NccfWindowShift()`, and `nccfLastLag` is `nccf_last_lag_`; modelled
from the spec (the options header is outside the sources): window size and
hop in samples at the internal rate, and the last dense NCCF lag.
`interFrameFactor` is `(log(1+delta_pitch))² · penalty_factor`
(pitch-functions.cc lines 472-473), kept abstract because `log` is
transcendental. -/
structure ModelOpts where
  lags : List ℚ
  softMinF0 : ℚ
  interFrameFactor : ℚ
  maxFramesLatency : ℤ
  nccfWindowSize : ℕ
  nccfWindowShift : ℕ
  nccfLastLag : ℕ
  useNaive : Bool

/-- The mutable state of `OnlinePitchFeatureImpl`
(pitch-functions.cc lines 774-817). -/
structure PitchStream where
  opts : ModelOpts
  frameInfo : List FrameInfo
  framesLatency : ℕ
  forwardCost : List ℚ
  forwardCostRemainder : ℚ
  lagNccf : List (ℤ × ℚ)
  isInputFinished : Bool
  signalSumsq : ℚ
  signalSum : ℚ
  downsampledSamplesProcessed : ℕ
  downsampledSignalRemainder : List ℚ

/-- The constructor `OnlinePitchFeatureImpl::OnlinePitchFeatureImpl`
(pitch-functions.cc lines 821-871): one synthetic frame `-1` whose states
are default-constructed, and a zero forward-cost vector. -/
def initStream (opts : ModelOpts) : PitchStream :=
  { opts := opts
    frameInfo := [⟨List.replicate opts.lags.length default, 0, -1⟩]
    framesLatency := 0
    forwardCost := List.replicate opts.lags.length 0
    forwardCostRemainder := 0
    lagNccf := []
    isInputFinished := false
    signalSumsq := 0
    signalSum := 0
    downsampledSamplesProcessed := 0
    downsampledSignalRemainder := [] }

/-- `OnlinePitchFeatureImpl::NumFramesAvailable`
(pitch-functions.cc lines 874-882). -/
def numFramesAvailable (opts : ModelOpts) (numDownsampled : ℕ) : ℕ :=
  let fullFrameLength := opts.nccfWindowSize + opts.nccfLastLag
  if numDownsampled < fullFrameLength then 0
  else (numDownsampled - fullFrameLength) / opts.nccfWindowShift + 1

/-- `OnlinePitchFeatureImpl::UpdateRemainder`
(pitch-functions.cc lines 884-927).  `downsampledWavePart` is the output of
the external `LinearResample` for this call. -/
def updateRemainder (s : PitchStream) (wave : List ℚ) : PitchStream :=
  let numFrames := s.frameInfo.length - 1
  let nextFrameSample := s.opts.nccfWindowShift * numFrames
  let nextProcessed := s.downsampledSamplesProcessed + wave.length
  let sumsq := s.signalSumsq + (wave.map (fun x => x * x)).sum
  let sum := s.signalSum + wave.sum
  let remainder :=
    if nextProcessed < nextFrameSample then ([] : List ℚ)
    else
      (List.range (nextProcessed - nextFrameSample)).map (fun k =>
        let i := nextFrameSample + k
        if s.downsampledSamplesProcessed ≤ i then
          wave.getD (i - s.downsampledSamplesProcessed) 0
        else
          s.downsampledSignalRemainder.getD
            (s.downsampledSignalRemainder.length -
              (s.downsampledSamplesProcessed - i)) 0)
  { s with
      signalSumsq := sumsq
      signalSum := sum
      downsampledSamplesProcessed := nextProcessed
      downsampledSignalRemainder := remainder }

/-- Minimum of a Kaldi vector (`VectorBase::Min`), 0 on the empty vector. -/
def fcMin : List ℚ → ℚ
  | [] => 0
  | x :: xs => xs.foldl min x

/-- Index of the first minimal element (`VectorBase::Min(int32*)`). -/
def fcArgmin (l : List ℚ) : ℤ :=
  (l.foldl
    (fun (acc : ℤ × ℤ × ℚ) x =>
      if x < acc.2.2 then (acc.1 + 1, acc.1 + 1, x) else (acc.1 + 1, acc.2.1, acc.2.2))
    (-1, 0, l.headD 0)).2.1

/-- The per-frame renormalization (pitch-functions.cc lines 1115-1118):
subtract the minimum from the forward costs, accumulating it into
`forward_cost_remainder_`. -/
def renormalize (tfc : List ℚ) (rem : ℚ) : List ℚ × ℚ :=
  let m := fcMin tfc
  (tfc.map (fun x => x - m), rem + m)

/-- The body of the per-frame Viterbi loop of `AcceptWaveform`
(pitch-functions.cc lines 1106-1120) for one frame with the given resampled
NCCF rows. -/
def processFrame (s : PitchStream) (nccfPitchRow nccfPovRow : List ℚ) : PitchStream :=
  let r := computeBacktraces s.opts.useNaive s.opts.interFrameFactor s.opts.softMinF0
      nccfPitchRow s.opts.lags s.forwardCost
  let rn := renormalize r.2 s.forwardCostRemainder
  let newFrame : FrameInfo :=
    ⟨List.zipWith (fun b p => StateInfo.mk b p) r.1 nccfPovRow, 0, -1⟩
  { s with
      frameInfo := newFrame :: s.frameInfo
      forwardCost := rn.1
      forwardCostRemainder := rn.2 }

/-- `OnlinePitchFeatureImpl::AcceptWaveform`
(pitch-functions.cc lines 1003-1134).  The external collaborators enter as
inputs: `wave` is the downsampled wave this call produces
(`signal_resampler_->Resample`), and `rows k` is row `k - start_frame` of
the resampled NCCF matrices (`nccf_resampler_->Resample` applied to the
internally computed NCCF, which passes through real `sqrt`), as a pair
(pitch row with ballast, pov row without). -/
def acceptWaveform (s : PitchStream) (wave : List ℚ)
    (rows : ℕ → List ℚ × List ℚ) : PitchStream :=
  let endFrame := numFramesAvailable s.opts (s.downsampledSamplesProcessed + wave.length)
  let startFrame := s.frameInfo.length - 1
  let numNewFrames := endFrame - startFrame
  if numNewFrames = 0 then updateRemainder s wave
  else
    let s1 := (List.range numNewFrames).foldl
      (fun st k => processFrame st (rows (startFrame + k)).1 (rows (startFrame + k)).2) s
    let s2 := updateRemainder s1 wave
    let best := fcArgmin s2.forwardCost
    let buf := List.replicate numNewFrames ((0 : ℤ), (0 : ℚ)) ++ s2.lagNccf
    let tb := setBestState best s2.frameInfo buf
    let lat := computeLatency s.opts.maxFramesLatency s.opts.lags.length tb.1
    { s2 with frameInfo := tb.1, lagNccf := tb.2, framesLatency := lat }

/-- `OnlinePitchFeatureImpl::NumFramesReady`
(pitch-functions.cc lines 969-974). -/
def numFramesReady (s : PitchStream) : ℕ :=
  s.lagNccf.length - s.framesLatency

/-- `OnlinePitchFeatureImpl::GetFrame` (pitch-functions.cc lines 977-982):
`(pov_nccf, 1/lags[lag_index])`; the buffer is stored newest-first, so
frame `t` sits at position `length - 1 - t`. -/
def getFrame (s : PitchStream) (t : ℕ) : ℚ × ℚ :=
  let p := s.lagNccf.getD (s.lagNccf.length - 1 - t) (0, 0)
  (p.2, 1 / s.opts.lags.getD p.1.toNat 0)

/-- `OnlinePitchFeatureImpl::InputFinished`
(pitch-functions.cc lines 984-993). -/
def inputFinishedCall (s : PitchStream) : PitchStream :=
  { s with isInputFinished := true, framesLatency := 0 }

/-- The states a pitch stream can reach: the constructor state, followed by
any number of `AcceptWaveform` (with well-sized resampler outputs, per the
`ArbitraryResample` collaborator contract) and `InputFinished` calls. -/
inductive Reachable (opts : ModelOpts) : PitchStream → Prop
  | init : Reachable opts (initStream opts)
  | accept {s : PitchStream} (wave : List ℚ) (rows : ℕ → List ℚ × List ℚ)
      (hrows : ∀ k, (rows k).1.length = opts.lags.length ∧
        (rows k).2.length = opts.lags.length) :
      Reachable opts s → Reachable opts (acceptWaveform s wave rows)
  | finish {s : PitchStream} : Reachable opts s →
      Reachable opts (inputFinishedCall s)

/-! ## C5: `InputFinished` -/

/-! ## C10: `AcceptWaveform` with zero new frames -/

/-! ## C3: forward-cost renormalization invariant -/

/-! ## C1: stability of finalized frames

Two concrete runs of the model (driven through `acceptWaveform` with
concrete resampler outputs) refute the claim:

* with `max_frames_latency = 1` the latency is clipped, frame 0 counts as
  ready after the first call, and the second call's traceback rewrites it;
* with `max_frames_latency = 20` the latency walk genuinely meets
  (latency 0, no clipping), frame 1 counts as ready, and the second call
  still rewrites it: `ComputeLatency`'s meet pins the states only from one
  frame further back than `NumFramesReady` assumes. -/

/-- Options of the clipped counterexample run (`L = 2` lags,
`max_frames_latency = 1`). -/
def exOptsClip : ModelOpts := ⟨[1/100, 11/1000], 0, 1, 1, 1, 1, 0, false⟩

/-- Resampled-NCCF oracle rows of the clipped counterexample run. -/
def exRowsClip : ℕ → List ℚ × List ℚ := fun k =>
  if k ≤ 1 then ([1/2, 1/4], [1/2, 1/4]) else ([0, 3/4], [0, 3/4])

/-- State after the first `AcceptWaveform` (two frames) of the clipped run. -/
def exClipS1 : PitchStream := acceptWaveform (initStream exOptsClip) [0, 0] exRowsClip

/-- State after the second `AcceptWaveform` (one frame) of the clipped run. -/
def exClipS2 : PitchStream := acceptWaveform exClipS1 [0] exRowsClip

/-- Options of the unclipped counterexample run (`max_frames_latency = 20`). -/
def exOptsMeet : ModelOpts := ⟨[1/100, 11/1000], 0, 1, 20, 1, 1, 0, false⟩

/-- Resampled-NCCF oracle rows of the unclipped counterexample run. -/
def exRowsMeet : ℕ → List ℚ × List ℚ := fun k =>
  if k = 0 then ([1, -1], [1, -1])
  else if k = 1 then ([0, 1/2], [0, 1/2])
  else ([0, 3/4], [0, 3/4])

/-- State after the first `AcceptWaveform` (two frames) of the unclipped run. -/
def exMeetS1 : PitchStream := acceptWaveform (initStream exOptsMeet) [0, 0] exRowsMeet

/-- State after the second `AcceptWaveform` (one frame) of the unclipped run. -/
def exMeetS2 : PitchStream := acceptWaveform exMeetS1 [0] exRowsMeet

/-! ### The amended stability guarantee

`abstractChunk` is the traceback tail of `AcceptWaveform`
(pitch-functions.cc lines 1124-1133) applied to an arbitrary batch of new
Viterbi frames and an arbitrary best final state; every real
`AcceptWaveform` call performs exactly this on the frames it computes, so
stability proved against arbitrary such steps covers all further calls. -/

/-- The per-frame data `followPrefix` and `FrameOk` depend on. -/
def framesData (chain : List FrameInfo) : List (List StateInfo × ℤ) :=
  chain.map (fun fi => (fi.stateInfo, fi.stateOffset))

/-- Iterated backpointer following through a chain prefix
(newest frame first). -/
def followPrefix (chain : List FrameInfo) (s : ℤ) : ℤ :=
  chain.foldl (fun a fi => mapState fi a) s

/-- Well-formedness of one frame for an `L`-state lattice: `L` states,
zero offset, in-range backpointers, monotone backpointers (the shape the
convex-cost Viterbi search produces). -/
def FrameOk (L : ℕ) (fi : FrameInfo) : Prop :=
  fi.stateInfo.length = L ∧ fi.stateOffset = 0 ∧
  (∀ k : ℕ, k < L → 0 ≤ mapState fi (k : ℤ) ∧ mapState fi (k : ℤ) < L) ∧
  (∀ k : ℕ, k < L → ∀ j : ℕ, j ≤ k → mapState fi (j : ℤ) ≤ mapState fi (k : ℤ))

/-- The uncapped latency walk: `some d` when the two sentinel images meet
inside the record at depth `d` (the walk of pitch-functions.cc lines
676-690 without the `max_latency` cap), `none` if the chain is exhausted
without a meet. -/
def meetDepth : ℤ → ℤ → List FrameInfo → ℕ → Option ℕ
  | _, _, [], _ => none
  | mn, mx, fi :: rest, lat =>
      let mn2 := mapState fi mn
      let mx2 := mapState fi mx
      if mn2 = mx2 then some lat
      else
        match rest with
        | [] => none
        | r :: rs => meetDepth mn2 mx2 (r :: rs) (lat + 1)

/-- A further call to the stream: a chunk (new frames plus a best final
state, as in pitch-functions.cc lines 1106-1133) or `InputFinished`. -/
inductive StreamStep where
  | chunk : List FrameInfo → ℤ → StreamStep
  | finish : StreamStep

/-- The traceback tail of `AcceptWaveform`
(pitch-functions.cc lines 1124-1133): push the new frames, resize
`lag_nccf_` with default pairs, run `SetBestState` from the given best
final state and recompute the latency. -/
def abstractChunk (s : PitchStream) (newFrames : List FrameInfo) (best : ℤ) :
    PitchStream :=
  let chain1 := newFrames ++ s.frameInfo
  let buf1 := List.replicate newFrames.length ((0 : ℤ), (0 : ℚ)) ++ s.lagNccf
  let tb := setBestState best chain1 buf1
  { s with
      frameInfo := tb.1
      lagNccf := tb.2
      framesLatency := computeLatency s.opts.maxFramesLatency s.opts.lags.length tb.1 }

/-- Apply one further call. -/
def applyStep (s : PitchStream) : StreamStep → PitchStream
  | StreamStep.chunk nf b => abstractChunk s nf b
  | StreamStep.finish => inputFinishedCall s

/-- Apply a sequence of further calls. -/
def applySteps (s : PitchStream) (steps : List StreamStep) : PitchStream :=
  steps.foldl applyStep s

/-- Well-formedness of a further call: chunk frames are well-formed and the
best final state is a lattice state (as `argmin` of the forward costs
always is). -/
def StepOk (L : ℕ) : StreamStep → Prop
  | StreamStep.chunk nf b => (∀ fi ∈ nf, FrameOk L fi) ∧ 0 ≤ b ∧ b < (L : ℤ)
  | StreamStep.finish => True

/-- The stability invariant: the stream's chain splits as `A ++ B` with a
fixed suffix `B` (and aligned buffer suffix `bufB`), every frame of the
mutable prefix `A` is well-formed, and following the backpointers through
`A` from any lattice state lands on `c0`. -/
def StableCtx (L : ℕ) (B : List FrameInfo) (bufB : List (ℤ × ℚ)) (c0 : ℤ)
    (s : PitchStream) : Prop :=
  ∃ A bufA, s.frameInfo = A ++ B ∧ s.lagNccf = bufA ++ bufB ∧
    bufA.length = A.length ∧ (∀ fi ∈ A, FrameOk L fi) ∧
    (∀ σ : ℤ, 0 ≤ σ → σ < L → followPrefix A σ = c0)

instance (L : ℕ) (fi : FrameInfo) : Decidable (FrameOk L fi) := by
  unfold FrameOk
  infer_instance

instance (L : ℕ) (st : StreamStep) : Decidable (StepOk L st) :=
  match st with
  | StreamStep.chunk nf b =>
      inferInstanceAs (Decidable ((∀ fi ∈ nf, FrameOk L fi) ∧ 0 ≤ b ∧ b < (L : ℤ)))
  | StreamStep.finish => inferInstanceAs (Decidable True)

/-- A concrete stream state satisfying the hypotheses of the amended C1
theorem: an unclipped meet at depth 0 on a three-record chain. -/
def exStable : PitchStream :=
  { opts := exOptsMeet
    frameInfo := [⟨[⟨0, 1⟩, ⟨0, 2⟩], 0, 0⟩, ⟨[⟨0, 0⟩, ⟨1, 0⟩], 0, 0⟩,
                  ⟨[⟨0, 0⟩, ⟨0, 0⟩], 0, -1⟩]
    framesLatency := 0
    forwardCost := [0, 0]
    forwardCostRemainder := 0
    lagNccf := [(0, 5), (0, 7)]
    isInputFinished := false
    signalSumsq := 0
    signalSum := 0
    downsampledSamplesProcessed := 0
    downsampledSignalRemainder := [] }

/-! ## C9: `WeightedMovingWindowNormalize`
(pitch-functions.cc lines 51-109) -/

/-- The window computation of `WeightedMovingWindowNormalize`
(pitch-functions.cc lines 63-76): center on `t`, clip to `[0, num_frames)`,
shifting toward the interior to preserve the length where possible. -/
def wmwnWindow (W N t : ℕ) : ℕ × ℕ :=
  let ws : ℤ := (t : ℤ) - (W / 2 : ℕ)
  let we : ℤ := ws + W
  let p1 : ℤ × ℤ := if ws < 0 then (0, we - ws) else (ws, we)
  let p2 : ℤ × ℤ :=
    if p1.2 > (N : ℤ) then
      (if p1.1 - (p1.2 - N) < 0 then 0 else p1.1 - (p1.2 - N), (N : ℤ))
    else p1
  (p2.1.toNat, p2.2.toNat)

/-- The loop body of `WeightedMovingWindowNormalize`
(pitch-functions.cc lines 62-108), carrying
`(last_window_start, last_window_end, weighted_sum, pov_sum)`;
`rem` counts the remaining values of `t`. -/
def wmwnGo (W : ℕ) (pov raw : List ℚ) (N : ℕ) :
    ℕ → ℕ → ℤ → ℤ → ℚ → ℚ → List ℚ
  | 0, _, _, _, _, _ => []
  | rem + 1, t, lastWs, lastWe, wsum, psum =>
      let w := wmwnWindow W N t
      let s2 : ℚ × ℚ :=
        if lastWs = -1 then
          (wsum + vecVec (subVector raw w.1 (w.2 - w.1)) (subVector pov w.1 (w.2 - w.1)),
           (subVector pov w.1 (w.2 - w.1)).sum)
        else
          let a : ℚ × ℚ :=
            if (w.1 : ℤ) > lastWs then
              (wsum - pov.getD lastWs.toNat 0 * raw.getD lastWs.toNat 0,
               psum - pov.getD lastWs.toNat 0)
            else (wsum, psum)
          if (w.2 : ℤ) > lastWe then
            (a.1 + pov.getD lastWe.toNat 0 * raw.getD lastWe.toNat 0,
             a.2 + pov.getD lastWe.toNat 0)
          else a
      (raw.getD t 0 - s2.1 / s2.2) ::
        wmwnGo W pov raw N rem (t + 1) (w.1 : ℤ) (w.2 : ℤ) s2.1 s2.2

/-- `WeightedMovingWindowNormalize` (pitch-functions.cc lines 51-109):
`num_frames` is `pov.Dim()` (asserted equal to `raw_log_pitch.Dim()`). -/
def weightedMovingWindowNormalize (W : ℕ) (pov raw : List ℚ)
    (frameStart : ℕ) : List ℚ :=
  wmwnGo W pov raw pov.length (pov.length - frameStart) frameStart (-1) (-1) 0 0

/-- The weighted sum `Σ pov(k)·raw(k)` over the window at `t`. -/
def weightedWindowSum (pov raw : List ℚ) (W N t : ℕ) : ℚ :=
  ∑ k ∈ Finset.Ico (wmwnWindow W N t).1 (wmwnWindow W N t).2,
    pov.getD k 0 * raw.getD k 0

/-- The sum `Σ pov(k)` over the window at `t`. -/
def povWindowSum (pov : List ℚ) (W N t : ℕ) : ℚ :=
  ∑ k ∈ Finset.Ico (wmwnWindow W N t).1 (wmwnWindow W N t).2, pov.getD k 0

/-! ## Correctness of the bounded search (claim C2)

The transition cost `c i j = (j-i)²·factor + prev[j]` satisfies the
inverse Monge (total monotonicity) inequality when `factor ≥ 0`; the
bounded search maintains per-state bound invariants, every backward pass
establishes that no predecessor above the backpointer beats the stored
cost, every forward pass the same below, and a pass with no change
therefore certifies optimality of every stored cost. -/

/-- The per-state bound invariants common to both pass directions:
cost consistency, bounds containment, and the lower-side facts
established by pass 0 and forward passes plus the upper-side bound
fact. -/
structure RowOk (c : ℕ → ℕ → ℚ) (L i : ℕ) (st : SearchSt) : Prop where
  tcon : st.tfc = c i st.bp
  lobp : st.lo ≤ st.bp
  bphi : st.bp ≤ st.hi
  hiL : st.hi < L
  slo : ∀ j, j < st.lo → st.tfc ≤ c i j
  nbr0 : st.tfc ≤ c i st.lo
  nbr1 : st.lo + 1 < L → st.tfc ≤ c i (st.lo + 1)
  shi : ∀ j, st.hi < j → j < L → st.tfc ≤ c i j

/-- Invariants at entry to a backward pass (established by pass 0 and by
forward passes): additionally no state strictly below the backpointer
beats the stored cost. -/
structure RowOkB (c : ℕ → ℕ → ℚ) (L i : ℕ) (st : SearchSt)
    extends RowOk c L i st : Prop where
  dn : ∀ j, j < st.bp → st.tfc ≤ c i j

/-- Invariants at entry to a forward pass (established by backward
passes): additionally the upper-edge facts and that no state strictly
above the backpointer beats the stored cost. -/
structure RowOkF (c : ℕ → ℕ → ℚ) (L i : ℕ) (st : SearchSt)
    extends RowOk c L i st : Prop where
  nbr2a : st.tfc ≤ c i st.hi
  nbr2b : 1 ≤ st.hi → st.tfc ≤ c i (st.hi - 1)
  up : ∀ j, st.bp < j → j < L → st.tfc ≤ c i j

/-- Optimality of a state list: every stored cost is attained by its
backpointer and beats every candidate predecessor. -/
def OptAll (c : ℕ → ℕ → ℚ) (L : ℕ) (sts : List SearchSt) : Prop :=
  ∀ k, k < L → (sts.getD k default).bp < L ∧
    (sts.getD k default).tfc = c k (sts.getD k default).bp ∧
    ∀ j, j < L → (sts.getD k default).tfc ≤ c k j

/-! ## Theorems -/

lemma clipNccf_le_one (n : ℝ) : clipNccf n ≤ 1 := by
  unfold clipNccf; split_ifs <;> linarith

lemma neg_one_le_clipNccf (n : ℝ) : -1 ≤ clipNccf n := by
  unfold clipNccf; split_ifs <;> linarith

lemma clipNccf_mono {x y : ℝ} (h : x ≤ y) : clipNccf x ≤ clipNccf y := by
  unfold clipNccf; split_ifs <;> linarith

lemma clipNccf_of_mem {x : ℝ} (h₁ : -1 ≤ x) (h₂ : x ≤ 1) : clipNccf x = x := by
  unfold clipNccf; split_ifs <;> linarith

/-- The base of the power in `nccfToPovFeature` is positive. -/
lemma nccf_base_pos (n : ℝ) : 0 < 1.0001 - clipNccf n := by
  have := clipNccf_le_one n; linarith

/-- C4, counterexample: the claim `NccfToPovFeature x ≤ 0 for all x ∈ [0, 1]`
fails at `x = 0`: because the implementation uses the constant `1.0001`
(not `1`), `NccfToPovFeature 0 = 1.0001 ^ 0.15 - 1 > 0`. -/
theorem nccfToPovFeature_pos_at_zero :
    (0 : ℝ) ∈ Set.Icc (0 : ℝ) 1 ∧ 0 < nccfToPovFeature 0 := by
  refine ⟨by simp, ?_⟩
  have hclip : clipNccf 0 = 0 := clipNccf_of_mem (by norm_num) (by norm_num)
  have hgt : (1 : ℝ) < (1.0001 : ℝ) ^ (0.15 : ℝ) := by
    rw [show (1 : ℝ) = (1.0001 : ℝ) ^ (0 : ℝ) by simp]
    exact (Real.rpow_lt_rpow_left_iff (by norm_num)).mpr (by norm_num)
  unfold nccfToPovFeature
  rw [hclip, show (1.0001 : ℝ) - 0 = 1.0001 by norm_num]
  linarith

/-- C4, amended: `NccfToPovFeature x ≤ 0` for `x ∈ [0.0001, 1]` (the bound
`0` must be raised to `0.0001` because of the `1.0001` constant), and
`NccfToPovFeature` is monotone non-increasing on `[-1, 1]`. -/
theorem nccfToPovFeature_nonpos_and_antitone :
    (∀ x : ℝ, 1 / 10000 ≤ x → x ≤ 1 → nccfToPovFeature x ≤ 0) ∧
    (∀ x y : ℝ, -1 ≤ x → y ≤ 1 → x ≤ y → nccfToPovFeature y ≤ nccfToPovFeature x) := by
  constructor
  · intro x hlo hhi
    have hclip : clipNccf x = x := clipNccf_of_mem (by linarith) hhi
    have hle1 : (1.0001 : ℝ) - x ≤ 1 := by linarith
    have hnn : (0 : ℝ) ≤ 1.0001 - x := by linarith
    have := Real.rpow_le_one hnn hle1 (by norm_num : (0:ℝ) ≤ 0.15)
    unfold nccfToPovFeature
    rw [hclip]
    linarith
  · intro x y _ _ hxy
    have hc := clipNccf_mono hxy
    have hbase : (0 : ℝ) ≤ 1.0001 - clipNccf y := le_of_lt (nccf_base_pos y)
    have hle : (1.0001 : ℝ) - clipNccf y ≤ 1.0001 - clipNccf x := by linarith
    have := Real.rpow_le_rpow hbase hle (by norm_num : (0:ℝ) ≤ 0.15)
    unfold nccfToPovFeature
    linarith

/-- Witness for the amended C4 theorem at concrete inputs `x = 1` and
`(x, y) = (0, 1)`. -/
theorem nccfToPovFeature_nonpos_and_antitone_witness :
    nccfToPovFeature 1 ≤ 0 ∧ nccfToPovFeature 1 ≤ nccfToPovFeature 0 :=
  ⟨nccfToPovFeature_nonpos_and_antitone.1 1 (by norm_num) le_rfl,
   nccfToPovFeature_nonpos_and_antitone.2 0 1 (by norm_num) le_rfl (by norm_num)⟩

/-- C6: with a nonnegative `norm_prod + ballast` (as produced by
`ComputeCorrelation` and a nonnegative ballast): when the denominator is
nonzero, any written value is `inner / denominator` (and the in-range value
is indeed written); when the denominator is zero, the value `0` is written
if `inner = 0`, and a fatal error is raised if and only if `inner ≠ 0`. -/
theorem computeNccfLag_contract (i n b : ℝ) (_h : 0 ≤ n + b) :
    ((n + b) ^ (0.5 : ℝ) ≠ 0 →
      (∀ r, computeNccfLag i n b = some r → r = i / (n + b) ^ (0.5 : ℝ)) ∧
      (i / (n + b) ^ (0.5 : ℝ) < 1.01 → -1.01 < i / (n + b) ^ (0.5 : ℝ) →
        computeNccfLag i n b = some (i / (n + b) ^ (0.5 : ℝ)))) ∧
    ((n + b) ^ (0.5 : ℝ) = 0 →
      ((i = 0 → computeNccfLag i n b = some 0) ∧
       (computeNccfLag i n b = none ↔ i ≠ 0))) := by
  constructor
  · intro hd
    constructor
    · intro r hr
      unfold computeNccfLag at hr
      rw [if_pos hd] at hr
      dsimp only at hr
      split_ifs at hr with hrange
      exact (Option.some_inj.mp hr).symm
    · intro h1 h2
      unfold computeNccfLag
      simp only [hd, ne_eq, not_false_iff, if_true]
      rw [if_pos ⟨h1, h2⟩]
  · intro hd
    constructor
    · intro hi
      unfold computeNccfLag
      simp [hd, hi]
    · unfold computeNccfLag
      simp only [hd, ne_eq, not_true_eq_false, if_false]
      constructor
      · intro hnone hi
        rw [if_pos hi] at hnone
        exact absurd hnone (by simp)
      · intro hi
        rw [if_neg hi]

/-- Witness for C6 at `inner = 0, norm = 0, ballast = 0` (zero denominator,
zero numerator: the value 0 is written, no fatal error). -/
theorem computeNccfLag_contract_witness : computeNccfLag 0 0 0 = some 0 :=
  ((computeNccfLag_contract 0 0 0 (by norm_num)).2
    (by rw [show (0:ℝ) + 0 = 0 by norm_num, Real.zero_rpow (by norm_num)])).1 rfl

lemma selectLagsLoop_getD (maxLag ratio : ℚ) :
    ∀ (fuel : ℕ) (lag : ℚ) (k : ℕ),
      k < (selectLagsLoop maxLag ratio fuel lag).length →
      (selectLagsLoop maxLag ratio fuel lag).getD k 0 = lag * ratio ^ k := by
  intro fuel
  induction fuel with
  | zero => intro lag k h; simp [selectLagsLoop] at h
  | succ n ih =>
      intro lag k h
      rw [selectLagsLoop] at h ⊢
      by_cases hle : lag ≤ maxLag
      · rw [if_pos hle] at h ⊢
        cases k with
        | zero => simp
        | succ m =>
            simp only [List.length_cons, Nat.succ_lt_succ_iff] at h
            simp only [List.getD_cons_succ]
            rw [ih (lag * ratio) m h]
            ring
      · rw [if_neg hle] at h
        simp at h

lemma selectLagsLoop_mem_le (maxLag ratio : ℚ) :
    ∀ (fuel : ℕ) (lag : ℚ), ∀ x ∈ selectLagsLoop maxLag ratio fuel lag, x ≤ maxLag := by
  intro fuel
  induction fuel with
  | zero => intro lag x h; simp [selectLagsLoop] at h
  | succ n ih =>
      intro lag x h
      rw [selectLagsLoop] at h
      by_cases hle : lag ≤ maxLag
      · rw [if_pos hle] at h
        rcases List.mem_cons.mp h with h | h
        · exact h ▸ hle
        · exact ih (lag * ratio) x h

      · rw [if_neg hle] at h
        simp at h

lemma selectLagsLoop_mem_pos (maxLag ratio : ℚ) (hr : 0 < ratio) :
    ∀ (fuel : ℕ) (lag : ℚ), 0 < lag →
      ∀ x ∈ selectLagsLoop maxLag ratio fuel lag, 0 < x := by
  intro fuel
  induction fuel with
  | zero => intro lag _ x h; simp [selectLagsLoop] at h
  | succ n ih =>
      intro lag hlag x h
      rw [selectLagsLoop] at h
      by_cases hle : lag ≤ maxLag
      · rw [if_pos hle] at h
        rcases List.mem_cons.mp h with h | h
        · exact h ▸ hlag
        · exact ih (lag * ratio) (mul_pos hlag hr) x h
      · rw [if_neg hle] at h
        simp at h

/-- C8: under the configuration preconditions `0 < min_f0 < max_f0` and
`delta_pitch > 0`, `SelectLags` produces a non-empty lag list whose first
element is `1/max_f0`, whose `k`-th element is `(1/max_f0)·(1+delta_pitch)^k`,
which is strictly increasing and positive, and all of whose elements are at
most `1/min_f0`. -/
theorem selectLags_spec (minF0 maxF0 deltaPitch : ℚ)
    (h0 : 0 < minF0) (h1 : minF0 < maxF0) (hd : 0 < deltaPitch) :
    selectLags minF0 maxF0 deltaPitch ≠ [] ∧
    (selectLags minF0 maxF0 deltaPitch).headD 0 = 1 / maxF0 ∧
    (∀ k, k < (selectLags minF0 maxF0 deltaPitch).length →
      (selectLags minF0 maxF0 deltaPitch).getD k 0 = (1 / maxF0) * (1 + deltaPitch) ^ k) ∧
    (∀ j k, j < k → k < (selectLags minF0 maxF0 deltaPitch).length →
      (selectLags minF0 maxF0 deltaPitch).getD j 0 <
        (selectLags minF0 maxF0 deltaPitch).getD k 0) ∧
    (∀ x ∈ selectLags minF0 maxF0 deltaPitch, 0 < x ∧ x ≤ 1 / minF0) := by
  have hmaxF0 : 0 < maxF0 := lt_trans h0 h1
  have hminLag : 0 < 1 / maxF0 := by positivity
  have hle : 1 / maxF0 ≤ 1 / minF0 := by
    apply one_div_le_one_div_of_le h0 (le_of_lt h1)
  have hne : selectLags minF0 maxF0 deltaPitch ≠ [] := by
    unfold selectLags
    rw [selectLagsLoop]
    rw [if_pos hle]
    simp
  refine ⟨hne, ?_, ?_, ?_, ?_⟩
  · unfold selectLags
    rw [selectLagsLoop]
    rw [if_pos hle]
    simp
  · intro k hk
    exact selectLagsLoop_getD _ _ _ _ k hk
  · intro j k hjk hk
    have hj : j < (selectLags minF0 maxF0 deltaPitch).length := lt_trans hjk hk
    unfold selectLags at hj hk ⊢
    rw [selectLagsLoop_getD _ _ _ _ j hj, selectLagsLoop_getD _ _ _ _ k hk]
    have hr1 : (1 : ℚ) < 1 + deltaPitch := by linarith
    exact mul_lt_mul_of_pos_left (pow_lt_pow_right₀ hr1 hjk) hminLag
  · intro x hx
    refine ⟨selectLagsLoop_mem_pos _ _ (by linarith) _ _ hminLag x hx, ?_⟩
    exact selectLagsLoop_mem_le _ _ _ _ x hx

/-- Witness for C8 at `min_f0 = 90`, `max_f0 = 100`, `delta_pitch = 1/10`. -/
theorem selectLags_spec_witness :
    selectLags 90 100 (1/10) ≠ [] ∧ (selectLags 90 100 (1/10)).headD 0 = 1 / 100 :=
  ⟨(selectLags_spec 90 100 (1/10) (by norm_num) (by norm_num) (by norm_num)).1,
   (selectLags_spec 90 100 (1/10) (by norm_num) (by norm_num) (by norm_num)).2.1⟩

lemma vecVec_subVector (xs : List ℚ) :
    ∀ (W a b : ℕ), a + W ≤ xs.length → b + W ≤ xs.length →
      vecVec (subVector xs a W) (subVector xs b W) =
        ∑ k ∈ Finset.range W, xs.getD (a + k) 0 * xs.getD (b + k) 0 := by
  intro W
  induction W with
  | zero => intro a b _ _; simp [vecVec, subVector]
  | succ n ih =>
      intro a b ha hb
      have ha1 : a < xs.length := by omega
      have hb1 : b < xs.length := by omega
      have hda : xs.drop a = xs.get ⟨a, ha1⟩ :: xs.drop (a + 1) :=
        List.drop_eq_get_cons ha1
      have hdb : xs.drop b = xs.get ⟨b, hb1⟩ :: xs.drop (b + 1) :=
        List.drop_eq_get_cons hb1
      unfold subVector
      rw [hda, hdb, List.take_succ_cons, List.take_succ_cons]
      unfold vecVec
      rw [List.zipWith_cons_cons, List.sum_cons]
      have ih2 := ih (a + 1) (b + 1) (by omega) (by omega)
      unfold vecVec subVector at ih2
      rw [ih2, Finset.sum_range_succ' (fun k => xs.getD (a + k) 0 * xs.getD (b + k) 0) n]
      have hga : xs.get ⟨a, ha1⟩ = xs.getD (a + 0) 0 := by
        rw [Nat.add_zero, List.getD_eq_get xs 0 ha1]
      have hgb : xs.get ⟨b, hb1⟩ = xs.getD (b + 0) 0 := by
        rw [Nat.add_zero, List.getD_eq_get xs 0 hb1]
      rw [hga, hgb]
      have : ∀ k, a + 1 + k = a + (k + 1) := by omega
      rw [add_comm]
      congr 1
      apply Finset.sum_congr rfl
      intro k _
      have e1 : a + 1 + k = a + (k + 1) := by omega
      have e2 : b + 1 + k = b + (k + 1) := by omega
      rw [e1, e2]

lemma sum_take (xs : List ℚ) :
    ∀ W : ℕ, W ≤ xs.length →
      (xs.take W).sum = ∑ k ∈ Finset.range W, xs.getD k 0 := by
  intro W
  induction W with
  | zero => intro _; simp
  | succ n ih =>
      intro h
      have hn : n < xs.length := by omega
      rw [List.take_succ, List.sum_append, ih (by omega), Finset.sum_range_succ,
        List.getElem?_eq_getElem hn, List.getD_eq_getElem xs 0 hn]
      simp

lemma getD_map_sub (xs : List ℚ) (m : ℚ) (k : ℕ) (h : k < xs.length) :
    (xs.map (fun x => x - m)).getD k 0 = xs.getD k 0 - m := by
  have h2 : k < (xs.map (fun x => x - m)).length := by simpa using h
  rw [List.getD_eq_get _ 0 h2, List.getD_eq_get xs 0 h]
  simp

/-- C7: for every lag `ℓ ∈ [first_lag, last_lag]`, with the window long
enough (`|wave| ≥ W + last_lag`), `ComputeCorrelation` outputs
`inner_prod(ℓ-first_lag) = Σ_{k<W} w'(k)·w'(k+ℓ)` and
`norm_prod(ℓ-first_lag) = (Σ_{k<W} w'(k)²)·(Σ_{k<W} w'(k+ℓ)²)`, where
`w'(k) = wave(k) - mean(wave(0..W))`: the subtracted mean is that of the
first `W` samples only, applied to every sample including the shifted tail. -/
theorem computeCorrelation_spec (wave : List ℚ) (firstLag lastLag W : ℕ)
    (_hW : 1 ≤ W) (hlen : W + lastLag ≤ wave.length) (lag : ℕ)
    (hlo : firstLag ≤ lag) (hhi : lag ≤ lastLag) :
    ((computeCorrelation wave firstLag lastLag W).1.getD (lag - firstLag) 0 =
      ∑ k ∈ Finset.range W,
        (wave.getD k 0 - (∑ j ∈ Finset.range W, wave.getD j 0) / (W : ℚ)) *
        (wave.getD (lag + k) 0 - (∑ j ∈ Finset.range W, wave.getD j 0) / (W : ℚ))) ∧
    ((computeCorrelation wave firstLag lastLag W).2.getD (lag - firstLag) 0 =
      (∑ k ∈ Finset.range W,
        (wave.getD k 0 - (∑ j ∈ Finset.range W, wave.getD j 0) / (W : ℚ)) ^ 2) *
      (∑ k ∈ Finset.range W,
        (wave.getD (lag + k) 0 - (∑ j ∈ Finset.range W, wave.getD j 0) / (W : ℚ)) ^ 2)) := by
  have hmean : (subVector wave 0 W).sum / (W : ℚ) =
      (∑ j ∈ Finset.range W, wave.getD j 0) / (W : ℚ) := by
    unfold subVector
    rw [List.drop_zero, sum_take wave W (by omega)]
  set m : ℚ := (∑ j ∈ Finset.range W, wave.getD j 0) / (W : ℚ) with hm
  set zmw : List ℚ := wave.map (fun x => x - (subVector wave 0 W).sum / (W : ℚ)) with hzmw
  have hzl : zmw.length = wave.length := by simp [hzmw]
  have hzget : ∀ k, k < wave.length → zmw.getD k 0 = wave.getD k 0 - m := by
    intro k hk
    rw [hzmw, hmean]
    exact getD_map_sub wave m k hk
  have hidx : lag - firstLag < lastLag + 1 - firstLag := by omega
  have hvv : ∀ a b : ℕ, a + W ≤ wave.length → b + W ≤ wave.length →
      vecVec (subVector zmw a W) (subVector zmw b W) =
        ∑ k ∈ Finset.range W, (wave.getD (a + k) 0 - m) * (wave.getD (b + k) 0 - m) := by
    intro a b ha hb
    rw [vecVec_subVector zmw W a b (by omega) (by omega)]
    apply Finset.sum_congr rfl
    intro k hk
    have hk' : k < W := Finset.mem_range.mp hk
    rw [hzget (a + k) (by omega), hzget (b + k) (by omega)]
  have hfl : firstLag + (lag - firstLag) = lag := by omega
  constructor
  · show ((List.range (lastLag + 1 - firstLag)).map (fun k =>
        vecVec (subVector zmw 0 W) (subVector zmw (firstLag + k) W))).getD
          (lag - firstLag) 0 = _
    rw [List.getD_eq_get _ 0 (by simpa using hidx)]
    simp only [List.get_eq_getElem, List.getElem_map, List.getElem_range]
    rw [hfl, hvv 0 (lag) (by omega) (by omega)]
    simp
  · show ((List.range (lastLag + 1 - firstLag)).map (fun k =>
        vecVec (subVector zmw 0 W) (subVector zmw 0 W) *
          vecVec (subVector zmw (firstLag + k) W) (subVector zmw (firstLag + k) W))).getD
          (lag - firstLag) 0 = _
    rw [List.getD_eq_get _ 0 (by simpa using hidx)]
    simp only [List.get_eq_getElem, List.getElem_map, List.getElem_range]
    rw [hfl, hvv 0 0 (by omega) (by omega), hvv lag lag (by omega) (by omega)]
    congr 1
    · apply Finset.sum_congr rfl
      intro k _
      simp [sq]
    · apply Finset.sum_congr rfl
      intro k _
      simp [sq]

/-- Witness for C7 at a concrete window: `wave = [1,2,3,4]`, `W = 2`,
lags `[1, 2]`, read at `lag = 1`. -/
theorem computeCorrelation_spec_witness :
    (computeCorrelation [1, 2, 3, 4] 1 2 2).1.getD 0 0 =
      ∑ k ∈ Finset.range 2,
        (([1, 2, 3, 4] : List ℚ).getD k 0 -
          (∑ j ∈ Finset.range 2, ([1, 2, 3, 4] : List ℚ).getD j 0) / (2 : ℚ)) *
        (([1, 2, 3, 4] : List ℚ).getD (1 + k) 0 -
          (∑ j ∈ Finset.range 2, ([1, 2, 3, 4] : List ℚ).getD j 0) / (2 : ℚ)) :=
  (computeCorrelation_spec [1, 2, 3, 4] 1 2 2 (by norm_num) (by norm_num) 1
    (by norm_num) (by norm_num)).1

/-- C5: after `InputFinished()`, `frames_latency` is 0 and `NumFramesReady()`
equals the length of the `lag_nccf_` emission buffer (the total number of
frames processed); the buffer itself is untouched, and the call is
idempotent, so this persists until further `AcceptWaveform` calls. -/
theorem inputFinished_spec (s : PitchStream) :
    (inputFinishedCall s).framesLatency = 0 ∧
    numFramesReady (inputFinishedCall s) = (inputFinishedCall s).lagNccf.length ∧
    (inputFinishedCall s).lagNccf = s.lagNccf ∧
    inputFinishedCall (inputFinishedCall s) = inputFinishedCall s := by
  refine ⟨rfl, ?_, rfl, rfl⟩
  simp [numFramesReady, inputFinishedCall]

/-- C10: when the downsampled sample count yields no new frame,
`AcceptWaveform` only runs `UpdateRemainder`: the frame chain, emission
buffer, forward costs, latency — hence `NumFramesReady` and every
`GetFrame` value — are unchanged, while the remainder and the signal
sum / sum-of-squares accumulators are updated. -/
theorem acceptWaveform_no_new_frames (s : PitchStream) (wave : List ℚ)
    (rows : ℕ → List ℚ × List ℚ)
    (h : numFramesAvailable s.opts (s.downsampledSamplesProcessed + wave.length) -
          (s.frameInfo.length - 1) = 0) :
    acceptWaveform s wave rows = updateRemainder s wave ∧
    (updateRemainder s wave).frameInfo = s.frameInfo ∧
    (updateRemainder s wave).lagNccf = s.lagNccf ∧
    (updateRemainder s wave).forwardCost = s.forwardCost ∧
    (updateRemainder s wave).framesLatency = s.framesLatency ∧
    (updateRemainder s wave).forwardCostRemainder = s.forwardCostRemainder ∧
    numFramesReady (acceptWaveform s wave rows) = numFramesReady s ∧
    (∀ t, getFrame (acceptWaveform s wave rows) t = getFrame s t) ∧
    (updateRemainder s wave).signalSum = s.signalSum + wave.sum ∧
    (updateRemainder s wave).signalSumsq =
      s.signalSumsq + (wave.map (fun x => x * x)).sum ∧
    (updateRemainder s wave).downsampledSamplesProcessed =
      s.downsampledSamplesProcessed + wave.length := by
  have hacc : acceptWaveform s wave rows = updateRemainder s wave := by
    unfold acceptWaveform
    rw [if_pos h]
  refine ⟨hacc, rfl, rfl, rfl, rfl, rfl, ?_, ?_, rfl, rfl, rfl⟩
  · rw [hacc]; rfl
  · intro t; rw [hacc]; rfl

/-- Witness for C10: the empty waveform on a fresh stream produces no
frames. -/
theorem acceptWaveform_no_new_frames_witness :
    acceptWaveform
      (initStream ⟨[1/100, 11/1000], 0, 1, 1, 1, 1, 0, false⟩) []
      (fun _ => ([], [])) =
    updateRemainder
      (initStream ⟨[1/100, 11/1000], 0, 1, 1, 1, 1, 0, false⟩) [] :=
  (acceptWaveform_no_new_frames _ [] _ (by decide)).1

lemma foldl_min_map_sub (m : ℚ) : ∀ (xs : List ℚ) (a : ℚ),
    (xs.map (fun y => y - m)).foldl min (a - m) = xs.foldl min a - m := by
  intro xs
  induction xs with
  | nil => intro a; rfl
  | cons x xs ih =>
      intro a
      simp only [List.map_cons, List.foldl_cons]
      rw [min_sub_sub_right, ih]

lemma fcMin_cons (x : ℚ) (xs : List ℚ) : fcMin (x :: xs) = xs.foldl min x := rfl

lemma fcMin_renormalize (tfc : List ℚ) (rem : ℚ) (h : tfc ≠ []) :
    fcMin (renormalize tfc rem).1 = 0 := by
  cases tfc with
  | nil => exact absurd rfl h
  | cons x xs =>
      unfold renormalize
      simp only [List.map_cons, fcMin_cons]
      rw [foldl_min_map_sub]
      exact sub_self _

lemma foldl_min_replicate_zero : ∀ n : ℕ, (List.replicate n (0 : ℚ)).foldl min 0 = 0 := by
  intro n
  induction n with
  | zero => rfl
  | succ k ih => simpa [List.replicate_succ] using ih

lemma fcMin_replicate_zero (n : ℕ) : fcMin (List.replicate (n + 1) (0 : ℚ)) = 0 := by
  rw [List.replicate_succ, fcMin_cons]
  exact foldl_min_replicate_zero n

lemma pass0Loop_length (c : ℕ → ℕ → ℚ) (n : ℕ) :
    ∀ (rem i lastBp : ℕ), (pass0Loop c n rem i lastBp).length = rem := by
  intro rem
  induction rem with
  | zero => intro i l; rfl
  | succ k ih => intro i l; simp [pass0Loop, ih]

lemma backwardAux_length (c : ℕ → ℕ → ℚ) :
    ∀ (sts : List SearchSt) (i lastBp : ℕ) (ch : Bool),
      (backwardAux c i lastBp ch sts).1.length = sts.length := by
  intro sts
  induction sts with
  | nil => intro i l ch; rfl
  | cons st rest ih =>
      intro i l ch
      unfold backwardAux
      dsimp only
      split_ifs <;> simp [ih]

lemma forwardAux_length (c : ℕ → ℕ → ℚ) :
    ∀ (sts : List SearchSt) (i lastBp : ℕ) (ch : Bool),
      (forwardAux c i lastBp ch sts).1.length = sts.length := by
  intro sts
  induction sts with
  | nil => intro i l ch; rfl
  | cons st rest ih =>
      intro i l ch
      unfold forwardAux
      dsimp only
      split_ifs <;> simp [ih]

lemma refineLoop_length (c : ℕ → ℕ → ℚ) (n : ℕ) :
    ∀ (fuel iter : ℕ) (sts : List SearchSt),
      (refineLoop c n fuel iter sts).length = sts.length := by
  intro fuel
  induction fuel with
  | zero => intro iter sts; rfl
  | succ k ih =>
      intro iter sts
      unfold refineLoop
      dsimp only
      split_ifs with hpar hch
      · rw [ih]
        simp [backwardAux_length]
      · simp [backwardAux_length]
      · rw [ih, forwardAux_length]
      · rw [forwardAux_length]

lemma computeBacktraces_tfc_length (u : Bool) (f s : ℚ) (nccf lags prev : List ℚ) :
    (computeBacktraces u f s nccf lags prev).2.length = min nccf.length lags.length := by
  unfold computeBacktraces computeLocalCost
  cases u
  · simp only [Bool.false_eq_true, if_false, List.length_zipWith, refineLoop_length,
      pass0Loop_length]
    omega
  · simp only [if_true, List.length_zipWith, List.length_map, List.length_range]
    omega

lemma renormalize_length (tfc : List ℚ) (rem : ℚ) :
    (renormalize tfc rem).1.length = tfc.length := by
  unfold renormalize
  simp

lemma processFrame_forwardCost (s : PitchStream) (p q : List ℚ)
    (hp : p.length = s.opts.lags.length) (hne2 : s.opts.lags ≠ []) :
    (processFrame s p q).forwardCost.length = s.opts.lags.length ∧
    fcMin (processFrame s p q).forwardCost = 0 := by
  have hlen : (computeBacktraces s.opts.useNaive s.opts.interFrameFactor s.opts.softMinF0
      p s.opts.lags s.forwardCost).2.length = s.opts.lags.length := by
    rw [computeBacktraces_tfc_length, hp, min_self]
  have hpf : (processFrame s p q).forwardCost =
      (renormalize (computeBacktraces s.opts.useNaive s.opts.interFrameFactor
        s.opts.softMinF0 p s.opts.lags s.forwardCost).2 s.forwardCostRemainder).1 := rfl
  constructor
  · rw [hpf, renormalize_length, hlen]
  · rw [hpf]
    apply fcMin_renormalize
    intro hcontra
    rw [hcontra] at hlen
    simp at hlen
    exact hne2 (List.length_eq_zero.mp hlen.symm)

lemma foldl_processFrame_opts (rows : ℕ → List ℚ × List ℚ) (start : ℕ) :
    ∀ (l : List ℕ) (st : PitchStream),
      (List.foldl (fun st k =>
        processFrame st (rows (start + k)).1 (rows (start + k)).2) st l).opts =
      st.opts := by
  intro l
  induction l with
  | nil => intro st; rfl
  | cons a l ihl => intro st; exact (ihl _).trans rfl

lemma acceptWaveform_opts (s : PitchStream) (wave : List ℚ)
    (rows : ℕ → List ℚ × List ℚ) : (acceptWaveform s wave rows).opts = s.opts := by
  unfold acceptWaveform
  dsimp only
  split_ifs with hzero
  · rfl
  · exact foldl_processFrame_opts rows (s.frameInfo.length - 1) _ s

lemma reachable_opts (opts : ModelOpts) :
    ∀ s, Reachable opts s → s.opts = opts := by
  intro s hs
  induction hs with
  | init => rfl
  | accept wave rows hrows hprev ih =>
      rw [acceptWaveform_opts]
      exact ih
  | finish hprev ih => exact ih

lemma reachable_forwardCost (opts : ModelOpts) (hne : opts.lags ≠ []) :
    ∀ s, Reachable opts s →
      s.forwardCost.length = opts.lags.length ∧ fcMin s.forwardCost = 0 := by
  intro s hs
  induction hs with
  | init =>
      constructor
      · simp [initStream]
      · obtain ⟨k, hk⟩ : ∃ k, opts.lags.length = k + 1 := by
          cases hl : opts.lags with
          | nil => exact absurd hl hne
          | cons a l => exact ⟨l.length, by simp⟩
        show fcMin (List.replicate opts.lags.length 0) = 0
        rw [hk]
        exact fcMin_replicate_zero k
  | accept wave rows hrows hprev ih =>
      rename_i s'
      have hopts' : s'.opts = opts := reachable_opts opts s' hprev
      unfold acceptWaveform
      dsimp only
      split_ifs with hzero
      · exact ih
      · set n := numFramesAvailable s'.opts
            (s'.downsampledSamplesProcessed + wave.length) - (s'.frameInfo.length - 1)
          with hn
        obtain ⟨m, hm⟩ : ∃ m, n = m + 1 := by
          cases hc : n with
          | zero => exact absurd hc hzero
          | succ m => exact ⟨m, rfl⟩
        rw [hm, List.range_succ, List.foldl_append]
        set st0 := List.foldl (fun st k =>
          processFrame st (rows ((s'.frameInfo.length - 1) + k)).1
            (rows ((s'.frameInfo.length - 1) + k)).2) s' (List.range m) with hst0
        have hopts0 : st0.opts = s'.opts :=
          foldl_processFrame_opts rows (s'.frameInfo.length - 1) (List.range m) s'
        have hres := processFrame_forwardCost st0
          (rows ((s'.frameInfo.length - 1) + m)).1
          (rows ((s'.frameInfo.length - 1) + m)).2
          (by rw [hopts0, hopts']; exact (hrows _).1)
          (by rw [hopts0, hopts']; exact hne)
        simp only [List.foldl_cons, List.foldl_nil]
        have hur : ∀ x : PitchStream,
            (updateRemainder x wave).forwardCost = x.forwardCost := fun _ => rfl
        rw [hopts0, hopts'] at hres
        simp only [hur]
        exact hres
  | finish hprev ih => exact ih

/-- C3: the per-frame renormalization subtracts exactly the minimum of the
forward-cost vector, accumulating it into `forward_cost_remainder_`, and the
invariant `min(forward_cost) = 0` holds in every state reachable outside the
per-frame Viterbi loop (constructor state, after each `AcceptWaveform`, and
after `InputFinished`). -/
theorem forwardCost_renorm_spec (opts : ModelOpts) (hne : opts.lags ≠ []) :
    (∀ (tfc : List ℚ) (rem : ℚ), tfc ≠ [] →
      (renormalize tfc rem).2 = rem + fcMin tfc ∧
      fcMin (renormalize tfc rem).1 = 0) ∧
    (∀ s, Reachable opts s → fcMin s.forwardCost = 0) := by
  constructor
  · intro tfc rem h
    exact ⟨rfl, fcMin_renormalize tfc rem h⟩
  · intro s hs
    exact (reachable_forwardCost opts hne s hs).2

/-- Witness for C3 at a concrete vector and the concrete constructor
state. -/
theorem forwardCost_renorm_spec_witness :
    fcMin (renormalize [3, 1] 5).1 = 0 ∧
    fcMin (initStream ⟨[1/100, 11/1000], 0, 1, 1, 1, 1, 0, false⟩).forwardCost = 0 :=
  ⟨((forwardCost_renorm_spec ⟨[1/100, 11/1000], 0, 1, 1, 1, 1, 0, false⟩
      (by decide)).1 [3, 1] 5 (by decide)).2,
   (forwardCost_renorm_spec ⟨[1/100, 11/1000], 0, 1, 1, 1, 1, 0, false⟩
      (by decide)).2 _ Reachable.init⟩

/-- C1, counterexample: a frame whose index is below `NumFramesReady()` is
rewritten by a later `AcceptWaveform` call — both when the latency was
clipped to `max_frames_latency` (first run: frame 0) and when the latency
walk genuinely met with no clipping (second run: latency 0, frame 1, the
newest "ready" frame). -/
theorem finalizedFrame_not_stable :
    (0 < numFramesReady exClipS1 ∧
     (exClipS1.framesLatency : ℤ) = exOptsClip.maxFramesLatency ∧
     getFrame exClipS2 0 ≠ getFrame exClipS1 0) ∧
    (exMeetS1.framesLatency = 0 ∧ 1 < numFramesReady exMeetS1 ∧
     getFrame exMeetS2 1 ≠ getFrame exMeetS1 1) := by
  have h1 : numFramesReady exClipS1 = 1 := by with_unfolding_all rfl
  have h2 : exClipS1.framesLatency = 1 := by with_unfolding_all rfl
  have h3 : getFrame exClipS2 0 = (1/4, 1000/11) := by with_unfolding_all rfl
  have h4 : getFrame exClipS1 0 = (1/2, 100) := by with_unfolding_all rfl
  have h5 : exMeetS1.framesLatency = 0 := by with_unfolding_all rfl
  have h6 : numFramesReady exMeetS1 = 2 := by with_unfolding_all rfl
  have h7 : getFrame exMeetS2 1 = (1/2, 1000/11) := by with_unfolding_all rfl
  have h8 : getFrame exMeetS1 1 = (0, 100) := by with_unfolding_all rfl
  refine ⟨⟨by rw [h1]; norm_num, by rw [h2]; rfl, ?_⟩,
          ⟨h5, by rw [h6]; norm_num, ?_⟩⟩
  · rw [h3, h4]
    norm_num [Prod.ext_iff]
  · rw [h7, h8]
    norm_num [Prod.ext_iff]

lemma frameOk_range {L : ℕ} {fi : FrameInfo} (h : FrameOk L fi) {σ : ℤ}
    (h0 : 0 ≤ σ) (hσ : σ < L) : 0 ≤ mapState fi σ ∧ mapState fi σ < L := by
  have hs : σ = ((σ.toNat : ℕ) : ℤ) := (Int.toNat_of_nonneg h0).symm
  rw [hs]
  exact h.2.2.1 σ.toNat (by omega)

lemma frameOk_mono {L : ℕ} {fi : FrameInfo} (h : FrameOk L fi) {σ τ : ℤ}
    (h0 : 0 ≤ σ) (hστ : σ ≤ τ) (hτ : τ < L) : mapState fi σ ≤ mapState fi τ := by
  have hs : σ = ((σ.toNat : ℕ) : ℤ) := (Int.toNat_of_nonneg h0).symm
  have ht : τ = ((τ.toNat : ℕ) : ℤ) := (Int.toNat_of_nonneg (le_trans h0 hστ)).symm
  rw [hs, ht]
  exact h.2.2.2 τ.toNat (by omega) σ.toNat (by omega)

lemma followPrefix_cons (fi : FrameInfo) (chain : List FrameInfo) (s : ℤ) :
    followPrefix (fi :: chain) s = followPrefix chain (mapState fi s) := rfl

lemma followPrefix_append (A B : List FrameInfo) (s : ℤ) :
    followPrefix (A ++ B) s = followPrefix B (followPrefix A s) := by
  unfold followPrefix
  exact List.foldl_append _ _ _ _

lemma followPrefix_range {L : ℕ} :
    ∀ (A : List FrameInfo), (∀ fi ∈ A, FrameOk L fi) →
      ∀ {σ : ℤ}, 0 ≤ σ → σ < L →
        0 ≤ followPrefix A σ ∧ followPrefix A σ < L := by
  intro A
  induction A with
  | nil => intro _ σ h0 hσ; exact ⟨h0, hσ⟩
  | cons fi rest ih =>
      intro hA σ h0 hσ
      rw [followPrefix_cons]
      have hfi := frameOk_range (hA fi (List.mem_cons_self fi rest)) h0 hσ
      exact ih (fun g hg => hA g (List.mem_cons_of_mem fi hg)) hfi.1 hfi.2

lemma mapState_congr {fi fj : FrameInfo} (h1 : fi.stateInfo = fj.stateInfo)
    (h2 : fi.stateOffset = fj.stateOffset) (s : ℤ) :
    mapState fi s = mapState fj s := by
  unfold mapState
  rw [h1, h2]

lemma frameOk_congr {L : ℕ} {fi fj : FrameInfo} (h1 : fi.stateInfo = fj.stateInfo)
    (h2 : fi.stateOffset = fj.stateOffset) (h : FrameOk L fj) : FrameOk L fi := by
  obtain ⟨ha, hb, hc, hd⟩ := h
  refine ⟨h1 ▸ ha, h2 ▸ hb, ?_, ?_⟩
  · intro k hk
    rw [mapState_congr h1 h2]
    exact hc k hk
  · intro k hk j hj
    rw [mapState_congr h1 h2, mapState_congr h1 h2]
    exact hd k hk j hj

lemma framesData_congr_forall {L : ℕ} :
    ∀ {A B : List FrameInfo}, framesData A = framesData B →
      (∀ fi ∈ B, FrameOk L fi) → ∀ fi ∈ A, FrameOk L fi := by
  intro A
  induction A with
  | nil => intro B _ _ fi hfi; simp at hfi
  | cons a A' ih =>
      intro B hAB hB fi hfi
      cases B with
      | nil => simp [framesData] at hAB
      | cons b B' =>
          simp only [framesData, List.map_cons, List.cons.injEq] at hAB
          rcases List.mem_cons.mp hfi with h | h
          · subst h
            exact frameOk_congr (congrArg Prod.fst hAB.1) (congrArg Prod.snd hAB.1)
              (hB b (List.mem_cons_self b B'))
          · exact ih hAB.2 (fun g hg => hB g (List.mem_cons_of_mem b hg)) fi h

lemma followPrefix_congr :
    ∀ {A B : List FrameInfo}, framesData A = framesData B →
      ∀ s, followPrefix A s = followPrefix B s := by
  intro A
  induction A with
  | nil =>
      intro B hAB s
      cases B with
      | nil => rfl
      | cons b B' => simp [framesData] at hAB
  | cons a A' ih =>
      intro B hAB s
      cases B with
      | nil => simp [framesData] at hAB
      | cons b B' =>
          simp only [framesData, List.map_cons, List.cons.injEq] at hAB
          rw [followPrefix_cons, followPrefix_cons,
            mapState_congr (congrArg Prod.fst hAB.1) (congrArg Prod.snd hAB.1) s]
          exact ih hAB.2 _

lemma meetDepth_ge :
    ∀ (chain : List FrameInfo) (mn mx : ℤ) (lat v : ℕ),
      meetDepth mn mx chain lat = some v → lat ≤ v := by
  intro chain
  induction chain with
  | nil => intro mn mx lat v h; simp [meetDepth] at h
  | cons fi rest ih =>
      intro mn mx lat v h
      rw [meetDepth.eq_def] at h
      dsimp only at h
      split_ifs at h with hmeet
      · have := Option.some_inj.mp h
        omega
      · cases rest with
        | nil => simp at h
        | cons r rs =>
            have := ih _ _ _ _ h
            omega

/-- The sandwich argument: when the uncapped walk meets at depth `d`, every
state in `[mn, mx]` is mapped by the first `d+1` frames to the same state. -/
lemma meetDepth_pins {L : ℕ} :
    ∀ (chain : List FrameInfo) (d lat : ℕ) (mn mx : ℤ),
      meetDepth mn mx chain lat = some (lat + d) →
      (∀ fi ∈ chain.take (d + 1), FrameOk L fi) →
      0 ≤ mn → mn ≤ mx → mx < L →
      ∀ σ : ℤ, mn ≤ σ → σ ≤ mx →
        followPrefix (chain.take (d + 1)) σ = followPrefix (chain.take (d + 1)) mn := by
  intro chain
  induction chain with
  | nil => intro d lat mn mx h; simp [meetDepth] at h
  | cons fi rest ih =>
      intro d lat mn mx h hok h0 hmnmx hmx σ hσ1 hσ2
      have hfi : FrameOk L fi := hok fi (by simp)
      rw [meetDepth.eq_def] at h
      dsimp only at h
      split_ifs at h with hmeet
      · -- met at this record: d = 0
        have hd : d = 0 := by
          have := Option.some_inj.mp h
          omega
        subst hd
        simp only [List.take_succ_cons, List.take_zero]
        rw [followPrefix_cons, followPrefix_cons]
        show followPrefix [] (mapState fi σ) = followPrefix [] (mapState fi mn)
        have hlow : mapState fi mn ≤ mapState fi σ :=
          frameOk_mono hfi h0 hσ1 (by omega)
        have hhigh : mapState fi σ ≤ mapState fi mx :=
          frameOk_mono hfi (le_trans h0 hσ1) hσ2 hmx
        unfold followPrefix
        simp only [List.foldl_nil]
        omega
      · cases rest with
        | nil => simp at h
        | cons r rs =>
            have hge := meetDepth_ge _ _ _ _ _ h
            have hd1 : 1 ≤ d := by omega
            have hrw : lat + d = (lat + 1) + (d - 1) := by omega
            rw [hrw] at h
            have hr0 := frameOk_range hfi h0 (lt_of_le_of_lt hmnmx hmx)
            have hrx := frameOk_range hfi (le_trans h0 hmnmx) hmx
            have hm : mapState fi mn ≤ mapState fi mx :=
              frameOk_mono hfi h0 hmnmx hmx
            have hok2 : ∀ g ∈ (r :: rs).take ((d - 1) + 1), FrameOk L g := by
              intro g hg
              apply hok g
              have hd2 : (d - 1) + 1 + 1 = d + 1 := by omega
              rw [show ((fi :: r :: rs).take (d + 1)) =
                fi :: ((r :: rs).take d) by simp]
              right
              rw [show d = (d - 1) + 1 by omega]
              exact hg
            have hind := ih (d - 1) (lat + 1) (mapState fi mn) (mapState fi mx) h
              hok2 hr0.1 hm hrx.2
            have htake : (fi :: r :: rs).take (d + 1) = fi :: ((r :: rs).take d) := by
              simp
            rw [htake, followPrefix_cons, followPrefix_cons]
            have hσlow : mapState fi mn ≤ mapState fi σ :=
              frameOk_mono hfi h0 hσ1 (by omega)
            have hσhigh : mapState fi σ ≤ mapState fi mx :=
              frameOk_mono hfi (le_trans h0 hσ1) hσ2 hmx
            rw [show (r :: rs).take d = (r :: rs).take ((d - 1) + 1) by
              rw [show (d - 1) + 1 = d by omega]]
            exact hind (mapState fi σ) hσlow hσhigh

lemma setBestState_cons_eq (best : ℤ) (fi : FrameInfo) (rest : List FrameInfo)
    (buf : List (ℤ × ℚ)) (h : best = fi.curBestState) :
    setBestState best (fi :: rest) buf = (fi :: rest, buf) := by
  rw [setBestState.eq_def]
  simp [h]

lemma setBestState_cons_ne (best : ℤ) (fi r : FrameInfo) (rest2 : List FrameInfo)
    (buf : List (ℤ × ℚ)) (h : ¬ best = fi.curBestState) :
    setBestState best (fi :: r :: rest2) buf =
      (FrameInfo.mk fi.stateInfo fi.stateOffset best ::
        (setBestState (mapState fi best) (r :: rest2) buf.tail).1,
       (best, (fi.stateInfo.getD (best - fi.stateOffset).toNat default).povNccf) ::
        (setBestState (mapState fi best) (r :: rest2) buf.tail).2) := by
  rw [setBestState.eq_def]
  simp only [if_neg h]
  rfl

/-- The traceback never crosses a frame whose stored `cur_best_state_`
equals the state the walk proposes: for a chain `A ++ fiB :: B2` where
following the backpointers through `A` from `best` lands exactly on
`fiB.curBestState`, `SetBestState` leaves `fiB :: B2` and the aligned tail
of the buffer untouched, and rewrites only the `A`-part (without changing
any frame's `state_info_`). -/
lemma setBestState_append :
    ∀ (A : List FrameInfo) (best : ℤ) (bufA : List (ℤ × ℚ)) (fiB : FrameInfo)
      (B2 : List FrameInfo) (bufB : List (ℤ × ℚ)),
      bufA.length = A.length →
      followPrefix A best = fiB.curBestState →
      ∃ A2 bufA2,
        setBestState best (A ++ fiB :: B2) (bufA ++ bufB) =
          (A2 ++ fiB :: B2, bufA2 ++ bufB) ∧
        framesData A2 = framesData A ∧ bufA2.length = bufA.length := by
  intro A
  induction A with
  | nil =>
      intro best bufA fiB B2 bufB hlen habs
      have hbufA : bufA = [] := List.length_eq_zero.mp (by simpa using hlen)
      subst hbufA
      refine ⟨[], [], ?_, rfl, rfl⟩
      simp only [List.nil_append]
      exact setBestState_cons_eq best fiB B2 bufB habs
  | cons fi A' ih =>
      intro best bufA fiB B2 bufB hlen habs
      obtain ⟨b, bufA', rfl⟩ : ∃ b bufA', bufA = b :: bufA' := by
        cases bufA with
        | nil => simp at hlen
        | cons b bufA' => exact ⟨b, bufA', rfl⟩
      by_cases hcb : best = fi.curBestState
      · refine ⟨fi :: A', b :: bufA', ?_, rfl, rfl⟩
        simp only [List.cons_append]
        exact setBestState_cons_eq best fi _ _ hcb
      · have hrec := ih (mapState fi best) bufA' fiB B2 bufB
          (by simpa using hlen) (by rw [← followPrefix_cons]; exact habs)
        obtain ⟨A2', bufA2', heq, hfd, hbl⟩ := hrec
        refine ⟨FrameInfo.mk fi.stateInfo fi.stateOffset best :: A2',
          (best, (fi.stateInfo.getD (best - fi.stateOffset).toNat default).povNccf)
            :: bufA2', ?_, ?_, ?_⟩
        · cases harr : A' ++ fiB :: B2 with
          | nil => simp at harr
          | cons r rs =>
              have hstep := setBestState_cons_ne best fi r rs
                ((b :: bufA') ++ bufB) hcb
              rw [show (fi :: A') ++ fiB :: B2 = fi :: (A' ++ fiB :: B2) by simp,
                harr, hstep]
              have htail : ((b :: bufA') ++ bufB).tail = bufA' ++ bufB := by simp
              rw [htail, ← harr, heq]
              simp
        · simpa [framesData] using hfd
        · simp [hbl]

lemma framesData_length (A : List FrameInfo) : (framesData A).length = A.length := by
  simp [framesData]

lemma stableCtx_applyStep {L : ℕ} {B : List FrameInfo} {bufB : List (ℤ × ℚ)}
    {c0 : ℤ} {s : PitchStream} (fiB : FrameInfo) (B2 : List FrameInfo)
    (hB : B = fiB :: B2) (hc0 : fiB.curBestState = c0)
    (h : StableCtx L B bufB c0 s) (step : StreamStep) (hstep : StepOk L step) :
    StableCtx L B bufB c0 (applyStep s step) ∧ (applyStep s step).opts = s.opts := by
  obtain ⟨A, bufA, hc, hbuf, hlen, hokA, hpin⟩ := h
  cases step with
  | finish =>
      refine ⟨⟨A, bufA, hc, hbuf, hlen, hokA, hpin⟩, rfl⟩
  | chunk nf b =>
      obtain ⟨hnf, hb0, hbL⟩ := hstep
      have hfr : followPrefix nf b ≥ 0 ∧ followPrefix nf b < L := by
        have := followPrefix_range nf hnf hb0 hbL
        exact ⟨this.1, this.2⟩
      have habs : followPrefix (nf ++ A) b = fiB.curBestState := by
        rw [followPrefix_append, hc0]
        exact hpin _ hfr.1 hfr.2
      have hlen2 : (List.replicate nf.length ((0 : ℤ), (0 : ℚ)) ++ bufA).length =
          (nf ++ A).length := by
        simp [hlen]
      obtain ⟨A2, bufA2, heq, hfd, hbl⟩ :=
        setBestState_append (nf ++ A) b
          (List.replicate nf.length ((0 : ℤ), (0 : ℚ)) ++ bufA) fiB B2 bufB hlen2 habs
      have hA2len : A2.length = (nf ++ A).length := by
        have := congrArg List.length hfd
        rwa [framesData_length, framesData_length] at this
      have hchain : nf ++ s.frameInfo = (nf ++ A) ++ (fiB :: B2) := by
        rw [hc, hB, List.append_assoc]
      have hbuf1 : List.replicate nf.length ((0 : ℤ), (0 : ℚ)) ++ s.lagNccf =
          (List.replicate nf.length ((0 : ℤ), (0 : ℚ)) ++ bufA) ++ bufB := by
        rw [hbuf, List.append_assoc]
      constructor
      · refine ⟨A2, bufA2, ?_, ?_, ?_, ?_, ?_⟩
        · show (setBestState b (nf ++ s.frameInfo)
            (List.replicate nf.length ((0 : ℤ), (0 : ℚ)) ++ s.lagNccf)).1 = A2 ++ B
          rw [hchain, hbuf1, heq, hB]
        · show (setBestState b (nf ++ s.frameInfo)
            (List.replicate nf.length ((0 : ℤ), (0 : ℚ)) ++ s.lagNccf)).2 = bufA2 ++ bufB
          rw [hchain, hbuf1, heq]
        · rw [hbl, hA2len]
          simp [hlen]
        · apply framesData_congr_forall hfd
          intro fi hfi
          rcases List.mem_append.mp hfi with hmem | hmem
          · exact hnf fi hmem
          · exact hokA fi hmem
        · intro σ h0 hσ
          rw [followPrefix_congr hfd σ, followPrefix_append]
          have hr := followPrefix_range nf hnf h0 hσ
          exact hpin _ hr.1 hr.2
      · rfl

lemma stableCtx_applySteps {L : ℕ} {B : List FrameInfo} {bufB : List (ℤ × ℚ)}
    {c0 : ℤ} (fiB : FrameInfo) (B2 : List FrameInfo)
    (hB : B = fiB :: B2) (hc0 : fiB.curBestState = c0) :
    ∀ (steps : List StreamStep) (s : PitchStream), StableCtx L B bufB c0 s →
      (∀ st ∈ steps, StepOk L st) →
      StableCtx L B bufB c0 (applySteps s steps) ∧ (applySteps s steps).opts = s.opts := by
  intro steps
  induction steps with
  | nil => intro s h _; exact ⟨h, rfl⟩
  | cons st steps ih =>
      intro s h hsteps
      have h1 := stableCtx_applyStep fiB B2 hB hc0 h st (hsteps st (by simp))
      have h2 := ih (applyStep s st) h1.1 (fun g hg => hsteps g (by simp [hg]))
      refine ⟨h2.1, ?_⟩
      show (applySteps (applyStep s st) steps).opts = s.opts
      rw [h2.2, h1.2]

/-- C1, amended: finalized frames are stable only one frame short of
`NumFramesReady()` and only when the latency was not clipped.  Precisely:
if the stored `frames_latency_` came from an uncapped meet of the latency
walk at depth `d` (no clipping), the chain's frames are well-formed
(monotone in-range backpointers, as the convex-cost Viterbi produces), and
the frame just below the meet agrees with the pinned traceback value, then
for every `t` with `t + 1 < NumFramesReady()`, `GetFrame(t)` returns the
same pair after any further sequence of `AcceptWaveform` traceback steps
and `InputFinished` calls.  (The counterexample shows both restrictions are
necessary: a clipped latency lets arbitrarily old ready frames change, and
even an unclipped meet leaves frame `NumFramesReady() - 1` revisable.) -/
theorem finalized_frames_stable (s : PitchStream) (d : ℕ)
    (hL : 1 ≤ s.opts.lags.length)
    (hok : ∀ fi ∈ s.frameInfo, FrameOk s.opts.lags.length fi)
    (hmeet : meetDepth 0 ((s.opts.lags.length : ℤ) - 1) s.frameInfo 0 = some d)
    (hlat : s.framesLatency = d)
    (hdepth : d + 1 < s.frameInfo.length)
    (hbuf : s.lagNccf.length = s.frameInfo.length - 1)
    (hcoh : (s.frameInfo.getD (d + 1) default).curBestState =
      followPrefix (s.frameInfo.take (d + 1)) 0)
    (steps : List StreamStep)
    (hsteps : ∀ st ∈ steps, StepOk s.opts.lags.length st)
    (t : ℕ) (ht : t + 1 < numFramesReady s) :
    getFrame (applySteps s steps) t = getFrame s t := by
  set L := s.opts.lags.length with hLdef
  set A := s.frameInfo.take (d + 1) with hA
  set bufA := s.lagNccf.take (d + 1) with hbA
  set bufB := s.lagNccf.drop (d + 1) with hbB
  have hfiB : s.frameInfo.drop (d + 1) =
      s.frameInfo.getD (d + 1) default :: s.frameInfo.drop (d + 2) := by
    rw [List.getD_eq_getElem _ _ hdepth]
    exact List.drop_eq_getElem_cons hdepth
  set fiB := s.frameInfo.getD (d + 1) default with hfB
  set c0 := followPrefix A 0 with hc0def
  have hokA : ∀ fi ∈ A, FrameOk L fi := fun fi hfi =>
    hok fi (List.take_subset _ _ hfi)
  have hpin : ∀ σ : ℤ, 0 ≤ σ → σ < L → followPrefix A σ = c0 := by
    intro σ h0 hσ
    have hmeet' : meetDepth 0 ((L : ℤ) - 1) s.frameInfo 0 = some (0 + d) := by
      rw [Nat.zero_add]; exact hmeet
    exact meetDepth_pins s.frameInfo d 0 0 ((L : ℤ) - 1) hmeet' hokA
      le_rfl (by omega) (by omega) σ h0 (by omega)
  have hblen : s.lagNccf.length = s.frameInfo.length - 1 := hbuf
  have hbufAlen : bufA.length = d + 1 := by
    rw [hbA, List.length_take]
    omega
  have hAlen : A.length = d + 1 := by
    rw [hA, List.length_take]
    omega
  have hctx : StableCtx L (s.frameInfo.drop (d + 1)) bufB c0 s := by
    refine ⟨A, bufA, ?_, ?_, ?_, hokA, hpin⟩
    · rw [hA]; exact (List.take_append_drop _ _).symm
    · rw [hbA, hbB]; exact (List.take_append_drop _ _).symm
    · rw [hbufAlen, hAlen]
  have hres := stableCtx_applySteps fiB (s.frameInfo.drop (d + 2)) hfiB
    (by rw [hcoh]) steps s hctx hsteps
  obtain ⟨⟨A2, bufA2, _, hbuf2, _, _, _⟩, hopts⟩ := hres
  have hbufBlen : bufB.length = s.lagNccf.length - (d + 1) := by
    rw [hbB, List.length_drop]
  have hready : t + 1 < s.lagNccf.length - d := by
    unfold numFramesReady at ht
    rw [hlat] at ht
    exact ht
  have htb : t + 1 ≤ bufB.length := by omega
  have hgf : ∀ (x : PitchStream), getFrame x t =
      ((x.lagNccf.getD (x.lagNccf.length - 1 - t) (0, 0)).2,
       1 / x.opts.lags.getD
         (x.lagNccf.getD (x.lagNccf.length - 1 - t) (0, 0)).1.toNat 0) :=
    fun _ => rfl
  have hsbuf : s.lagNccf = bufA ++ bufB := by
    rw [hbA, hbB]; exact (List.take_append_drop _ _).symm
  have hL1 : (bufA2 ++ bufB).getD ((bufA2 ++ bufB).length - 1 - t) (0, 0) =
      bufB.getD (bufB.length - 1 - t) (0, 0) := by
    rw [List.length_append]
    rw [List.getD_append_right _ _ _ _ (by omega)]
    congr 1
    omega
  have hL2 : (bufA ++ bufB).getD ((bufA ++ bufB).length - 1 - t) (0, 0) =
      bufB.getD (bufB.length - 1 - t) (0, 0) := by
    rw [List.length_append]
    rw [List.getD_append_right _ _ _ _ (by omega)]
    congr 1
    omega
  have hp : (applySteps s steps).lagNccf.getD
      ((applySteps s steps).lagNccf.length - 1 - t) (0, 0) =
      s.lagNccf.getD (s.lagNccf.length - 1 - t) (0, 0) := by
    have e1 : (applySteps s steps).lagNccf.getD
        ((applySteps s steps).lagNccf.length - 1 - t) (0, 0) =
        (bufA2 ++ bufB).getD ((bufA2 ++ bufB).length - 1 - t) (0, 0) := by
      rw [hbuf2]
    have e2 : s.lagNccf.getD (s.lagNccf.length - 1 - t) (0, 0) =
        (bufA ++ bufB).getD ((bufA ++ bufB).length - 1 - t) (0, 0) := by
      rw [hsbuf]
    rw [e1, hL1, e2, hL2]
  rw [hgf, hgf, hp, hopts]

/-- Witness for the amended C1 theorem: on `exStable`, frame 0 (with
`0 + 1 < NumFramesReady() = 2`) is unchanged by a further chunk that
traces back from best final state 1. -/
theorem finalized_frames_stable_witness :
    getFrame (applySteps exStable
      [StreamStep.chunk [⟨[⟨0, 3⟩, ⟨1, 4⟩], 0, -1⟩] 1]) 0 =
    getFrame exStable 0 :=
  finalized_frames_stable exStable 0 (by decide) (by decide) (by decide) rfl
    (by decide) (by decide) (by decide)
    [StreamStep.chunk [⟨[⟨0, 3⟩, ⟨1, 4⟩], 0, -1⟩] 1] (by decide) 0 (by decide)

lemma vecVec_subVector2 (xs ys : List ℚ) :
    ∀ (n a : ℕ), a + n ≤ xs.length → a + n ≤ ys.length →
      vecVec (subVector xs a n) (subVector ys a n) =
        ∑ k ∈ Finset.range n, xs.getD (a + k) 0 * ys.getD (a + k) 0 := by
  intro n
  induction n with
  | zero => intro a _ _; simp [vecVec, subVector]
  | succ m ih =>
      intro a hx hy
      have hax : a < xs.length := by omega
      have hay : a < ys.length := by omega
      unfold subVector
      rw [List.drop_eq_getElem_cons hax, List.drop_eq_getElem_cons hay,
        List.take_succ_cons, List.take_succ_cons]
      unfold vecVec
      rw [List.zipWith_cons_cons, List.sum_cons]
      have ih2 := ih (a + 1) (by omega) (by omega)
      unfold vecVec subVector at ih2
      rw [ih2, Finset.sum_range_succ'
        (fun k => xs.getD (a + k) 0 * ys.getD (a + k) 0) m]
      rw [add_comm]
      congr 1
      · apply Finset.sum_congr rfl
        intro k _
        have e1 : a + 1 + k = a + (k + 1) := by omega
        rw [e1]
      · rw [Nat.add_zero, List.getD_eq_getElem xs 0 hax,
          List.getD_eq_getElem ys 0 hay]

lemma sum_subVector (ys : List ℚ) :
    ∀ (n a : ℕ), a + n ≤ ys.length →
      (subVector ys a n).sum = ∑ k ∈ Finset.range n, ys.getD (a + k) 0 := by
  intro n
  induction n with
  | zero => intro a _; simp [subVector]
  | succ m ih =>
      intro a hy
      have hay : a < ys.length := by omega
      unfold subVector
      rw [List.drop_eq_getElem_cons hay, List.take_succ_cons, List.sum_cons]
      have ih2 := ih (a + 1) (by omega)
      unfold subVector at ih2
      rw [ih2, Finset.sum_range_succ' (fun k => ys.getD (a + k) 0) m, add_comm]
      congr 1
      · apply Finset.sum_congr rfl
        intro k _
        have e1 : a + 1 + k = a + (k + 1) := by omega
        rw [e1]
      · rw [Nat.add_zero, List.getD_eq_getElem ys 0 hay]

lemma wmwnWindow_step (W N t : ℕ) :
    (wmwnWindow W N t).1 ≤ (wmwnWindow W N (t + 1)).1 ∧
    (wmwnWindow W N (t + 1)).1 ≤ (wmwnWindow W N t).1 + 1 ∧
    (wmwnWindow W N t).2 ≤ (wmwnWindow W N (t + 1)).2 ∧
    (wmwnWindow W N (t + 1)).2 ≤ (wmwnWindow W N t).2 + 1 := by
  refine ⟨?_, ?_, ?_, ?_⟩ <;> (unfold wmwnWindow; dsimp only; split_ifs <;> omega)

lemma wmwnWindow_bounds (W N t : ℕ) (hW : 1 ≤ W) (hN : 1 ≤ N) :
    (wmwnWindow W N t).1 < (wmwnWindow W N t).2 ∧ (wmwnWindow W N t).2 ≤ N := by
  unfold wmwnWindow
  dsimp only
  split_ifs <;> constructor
  all_goals omega

lemma sum_Ico_slide (f : ℕ → ℚ) (a1 b1 a2 b2 : ℕ)
    (h1 : a1 ≤ a2) (h2 : a2 ≤ a1 + 1) (h3 : b1 ≤ b2) (h4 : b2 ≤ b1 + 1)
    (h5 : a1 < b1) :
    ∑ k ∈ Finset.Ico a2 b2, f k =
      ∑ k ∈ Finset.Ico a1 b1, f k -
        (if a1 < a2 then f a1 else 0) + (if b1 < b2 then f b1 else 0) := by
  rcases Nat.eq_or_lt_of_le h1 with ha | ha
  · rcases Nat.eq_or_lt_of_le h3 with hb | hb
    · subst ha; rw [← hb]
      simp [lt_irrefl]
    · have hb2 : b2 = b1 + 1 := by omega
      subst ha hb2
      rw [Finset.sum_Ico_succ_top (by omega : a1 ≤ b1)]
      simp only [lt_irrefl, if_false, Nat.lt_succ_self, if_true]
      ring
  · have ha2 : a2 = a1 + 1 := by omega
    rcases Nat.eq_or_lt_of_le h3 with hb | hb
    · subst ha2; rw [← hb]
      simp only [Nat.lt_succ_self, if_true, lt_irrefl, if_false]
      rw [Finset.sum_eq_sum_Ico_succ_bot h5 f]
      ring
    · have hb2 : b2 = b1 + 1 := by omega
      subst ha2 hb2
      rw [Finset.sum_Ico_succ_top (by omega : a1 + 1 ≤ b1)]
      simp only [Nat.lt_succ_self, if_true]
      rw [Finset.sum_eq_sum_Ico_succ_bot h5 f]
      ring

/-- The incremental loop maintains exactly the window sums: element `k` of
the remaining output equals `raw(t+k)` minus the weighted window mean at
`t+k`. -/
lemma wmwnGo_spec (W N : ℕ) (pov raw : List ℚ) (hW : 1 ≤ W) (hN : 1 ≤ N)
    (hpl : pov.length = N) (hrl : raw.length = N) :
    ∀ (rem t : ℕ) (lastWs lastWe : ℤ) (wsum psum : ℚ),
      t + rem ≤ N →
      ((lastWs = -1 ∧ wsum = 0) ∨
        (1 ≤ t ∧ lastWs = ((wmwnWindow W N (t - 1)).1 : ℤ) ∧
         lastWe = ((wmwnWindow W N (t - 1)).2 : ℤ) ∧
         wsum = weightedWindowSum pov raw W N (t - 1) ∧
         psum = povWindowSum pov W N (t - 1))) →
      ∀ k, k < rem →
        (wmwnGo W pov raw N rem t lastWs lastWe wsum psum).getD k 0 =
          raw.getD (t + k) 0 -
            weightedWindowSum pov raw W N (t + k) / povWindowSum pov W N (t + k) := by
  intro rem
  induction rem with
  | zero => intro t _ _ _ _ _ _ k hk; omega
  | succ m ih =>
      intro t lastWs lastWe wsum psum hrem hstate k hk
      obtain ⟨hab, hbN⟩ := wmwnWindow_bounds W N t hW hN
      set a2 := (wmwnWindow W N t).1 with ha2
      set b2 := (wmwnWindow W N t).2 with hb2
      have hs2 : (if lastWs = -1 then
          (wsum + vecVec (subVector raw a2 (b2 - a2)) (subVector pov a2 (b2 - a2)),
           (subVector pov a2 (b2 - a2)).sum)
        else
          let a : ℚ × ℚ :=
            if (a2 : ℤ) > lastWs then
              (wsum - pov.getD lastWs.toNat 0 * raw.getD lastWs.toNat 0,
               psum - pov.getD lastWs.toNat 0)
            else (wsum, psum)
          if (b2 : ℤ) > lastWe then
            (a.1 + pov.getD lastWe.toNat 0 * raw.getD lastWe.toNat 0,
             a.2 + pov.getD lastWe.toNat 0)
          else a) =
          (weightedWindowSum pov raw W N t, povWindowSum pov W N t) := by
        rcases hstate with ⟨hfresh, hw0⟩ | ⟨ht1, hws, hwe, hwv, hpv⟩
        · rw [if_pos hfresh, hw0]
          have hvv := vecVec_subVector2 raw pov (b2 - a2) a2
            (by omega) (by omega)
          have hsv := sum_subVector pov (b2 - a2) a2 (by omega)
          rw [hvv, hsv]
          unfold weightedWindowSum povWindowSum
          rw [Finset.sum_Ico_eq_sum_range, Finset.sum_Ico_eq_sum_range, ← ha2, ← hb2]
          rw [Prod.mk.injEq]
          constructor
          · rw [zero_add]
            apply Finset.sum_congr rfl
            intro j _
            ring
          · rfl
        · have hlastne : ¬ lastWs = -1 := by omega
          rw [if_neg hlastne]
          obtain ⟨hstep1, hstep2, hstep3, hstep4⟩ :=
            wmwnWindow_step W N (t - 1)
          rw [show t - 1 + 1 = t by omega] at hstep1 hstep2 hstep3 hstep4
          set a1 := (wmwnWindow W N (t - 1)).1 with ha1
          set b1 := (wmwnWindow W N (t - 1)).2 with hb1
          obtain ⟨hab1, hbN1⟩ := wmwnWindow_bounds W N (t - 1) hW hN
          have hslideW := sum_Ico_slide (fun j => pov.getD j 0 * raw.getD j 0)
            a1 b1 a2 b2 hstep1 hstep2 hstep3 hstep4 hab1
          have hslideP := sum_Ico_slide (fun j => pov.getD j 0)
            a1 b1 a2 b2 hstep1 hstep2 hstep3 hstep4 hab1
          have htn1 : lastWs.toNat = a1 := by omega
          have htn2 : lastWe.toNat = b1 := by omega
          have hcond1 : ((a2 : ℤ) > lastWs) ↔ (a1 < a2) := by omega
          have hcond2 : ((b2 : ℤ) > lastWe) ↔ (b1 < b2) := by omega
          unfold weightedWindowSum povWindowSum
          rw [← ha2, ← hb2, hslideW, hslideP]
          rw [hwv, hpv]
          unfold weightedWindowSum povWindowSum
          rw [← ha1, ← hb1, htn1, htn2]
          by_cases hc1 : a1 < a2 <;> by_cases hc2 : b1 < b2
          · simp only [if_pos (hcond1.mpr hc1), if_pos (hcond2.mpr hc2),
              if_pos hc1, if_pos hc2]
          · simp only [if_pos (hcond1.mpr hc1),
              if_neg (fun h => hc2 (hcond2.mp h)),
              if_pos hc1, if_neg hc2, add_zero]
          · simp only [if_neg (fun h => hc1 (hcond1.mp h)),
              if_pos (hcond2.mpr hc2), if_neg hc1, if_pos hc2, sub_zero]
          · simp only [if_neg (fun h => hc1 (hcond1.mp h)),
              if_neg (fun h => hc2 (hcond2.mp h)), if_neg hc1, if_neg hc2,
              sub_zero, add_zero]
      rw [wmwnGo]
      dsimp only
      rw [← ha2, ← hb2, hs2]
      cases k with
      | zero =>
          simp only [List.getD_cons_zero, Nat.add_zero]
      | succ j =>
          simp only [List.getD_cons_succ]
          have hih := ih (t + 1) (a2 : ℤ) (b2 : ℤ)
            (weightedWindowSum pov raw W N t) (povWindowSum pov W N t)
            (by omega)
            (Or.inr ⟨by omega, by rw [show t + 1 - 1 = t by omega],
              by rw [show t + 1 - 1 = t by omega],
              by rw [show t + 1 - 1 = t by omega],
              by rw [show t + 1 - 1 = t by omega]⟩)
            j (by omega)
          rw [hih]
          rw [show t + 1 + j = t + (j + 1) by omega]

lemma getD_replicate_lt (n k : ℕ) (c d : ℚ) (h : k < n) :
    (List.replicate n c).getD k d = c := by
  rw [List.getD_eq_getElem _ _ (by simpa using h)]
  simp

/-- Claim C9: for `WeightedMovingWindowNormalize` with `frame_start = 0`:
(a) if the pov input is constantly 1, every output equals
`raw_log_pitch(t)` minus the unweighted mean of `raw_log_pitch` over the
clipped/shifted window at `t`; (b) if `raw_log_pitch` is constantly `c`,
every output equals 0, for any pov input with positive window sums. -/
theorem weightedMovingWindowNormalize_spec (W N : ℕ) (hW : 1 ≤ W) :
    (∀ (raw : List ℚ), raw.length = N → ∀ t, t < N →
      (weightedMovingWindowNormalize W (List.replicate N (1 : ℚ)) raw 0).getD t 0 =
        raw.getD t 0 -
          (∑ k ∈ Finset.Ico (wmwnWindow W N t).1 (wmwnWindow W N t).2,
              raw.getD k 0) /
            ((((wmwnWindow W N t).2 - (wmwnWindow W N t).1 : ℕ)) : ℚ)) ∧
    (∀ (pov : List ℚ) (c : ℚ), pov.length = N →
      (∀ t, t < N → 0 < povWindowSum pov W N t) → ∀ t, t < N →
      (weightedMovingWindowNormalize W pov (List.replicate N c) 0).getD t 0 = 0) := by
  constructor
  · intro raw hrl t ht
    have hN : 1 ≤ N := by omega
    have hg := wmwnGo_spec W N (List.replicate N (1 : ℚ)) raw hW hN
      (by simp) hrl N 0 (-1) (-1) 0 0 (by omega) (Or.inl ⟨rfl, rfl⟩) t ht
    simp only [Nat.zero_add] at hg
    have hmm : weightedMovingWindowNormalize W (List.replicate N (1 : ℚ)) raw 0 =
        wmwnGo W (List.replicate N (1 : ℚ)) raw N N 0 (-1) (-1) 0 0 := by
      unfold weightedMovingWindowNormalize
      rw [List.length_replicate, Nat.sub_zero]
    rw [hmm, hg]
    have hb := wmwnWindow_bounds W N t hW hN
    have h1 : weightedWindowSum (List.replicate N (1 : ℚ)) raw W N t =
        ∑ k ∈ Finset.Ico (wmwnWindow W N t).1 (wmwnWindow W N t).2,
          raw.getD k 0 := by
      unfold weightedWindowSum
      apply Finset.sum_congr rfl
      intro k hk
      have hk2 := (Finset.mem_Ico.mp hk).2
      rw [getD_replicate_lt N k 1 0 (by omega), one_mul]
    have h2 : povWindowSum (List.replicate N (1 : ℚ)) W N t =
        (((wmwnWindow W N t).2 - (wmwnWindow W N t).1 : ℕ) : ℚ) := by
      unfold povWindowSum
      rw [Finset.sum_congr rfl (fun k hk => getD_replicate_lt N k 1 0 (by
        have hk2 := (Finset.mem_Ico.mp hk).2; omega))]
      rw [Finset.sum_const, Nat.card_Ico, nsmul_eq_mul, mul_one]
    rw [h1, h2]
  · intro pov c hpl hpos t ht
    have hN : 1 ≤ N := by omega
    have hg := wmwnGo_spec W N pov (List.replicate N c) hW hN hpl (by simp)
      N 0 (-1) (-1) 0 0 (by omega) (Or.inl ⟨rfl, rfl⟩) t ht
    simp only [Nat.zero_add] at hg
    have hmm : weightedMovingWindowNormalize W pov (List.replicate N c) 0 =
        wmwnGo W pov (List.replicate N c) N N 0 (-1) (-1) 0 0 := by
      unfold weightedMovingWindowNormalize
      rw [hpl, Nat.sub_zero]
    rw [hmm, hg]
    have hb := wmwnWindow_bounds W N t hW hN
    have h1 : weightedWindowSum pov (List.replicate N c) W N t =
        c * povWindowSum pov W N t := by
      unfold weightedWindowSum povWindowSum
      rw [Finset.mul_sum]
      apply Finset.sum_congr rfl
      intro k hk
      have hk2 := (Finset.mem_Ico.mp hk).2
      rw [getD_replicate_lt N k c 0 (by omega)]
      ring
    rw [h1, getD_replicate_lt N t c 0 ht]
    rw [mul_div_assoc, div_self (ne_of_gt (hpos t ht)), mul_one, sub_self]

/-- Witness for C9 at `W = 3`, `N = 2`. -/
theorem weightedMovingWindowNormalize_spec_witness :
    (weightedMovingWindowNormalize 3 (List.replicate 2 (1 : ℚ)) [4, 8] 0).getD 0 0 =
      (-2 : ℚ) ∧
    (weightedMovingWindowNormalize 3 [1/2, 1/4]
      (List.replicate 2 (5 : ℚ)) 0).getD 1 0 = 0 := by
  constructor
  · have h := (weightedMovingWindowNormalize_spec 3 2 (by norm_num)).1
      [4, 8] (by rfl) 0 (by norm_num)
    rw [h]
    have hw : wmwnWindow 3 2 0 = (0, 2) := by with_unfolding_all rfl
    rw [hw]
    rw [show Finset.Ico 0 2 = {0, 1} from by rfl]
    norm_num
  · exact (weightedMovingWindowNormalize_spec 3 2 (by norm_num)).2
      [1/2, 1/4] 5 (by rfl)
      (by
        intro t ht
        interval_cases t
        · rw [show povWindowSum [1/2, 1/4] 3 2 0 = 3/4 from by
            unfold povWindowSum
            rw [show wmwnWindow 3 2 0 = (0, 2) from by with_unfolding_all rfl]
            rw [show Finset.Ico 0 2 = {0, 1} from by rfl]
            norm_num]
          norm_num
        · rw [show povWindowSum [1/2, 1/4] 3 2 1 = 3/4 from by
            unfold povWindowSum
            rw [show wmwnWindow 3 2 1 = (0, 2) from by with_unfolding_all rfl]
            rw [show Finset.Ico 0 2 = {0, 1} from by rfl]
            norm_num]
          norm_num)
      1 (by norm_num)

lemma transCost_monge (factor : ℚ) (hf : 0 ≤ factor) (prev : List ℚ) :
    ∀ i i' j j' : ℕ, i ≤ i' → j ≤ j' →
      transCost factor prev i j + transCost factor prev i' j' ≤
        transCost factor prev i j' + transCost factor prev i' j := by
  intro i i' j j' hi hj
  unfold transCost
  have h1 : (i : ℚ) ≤ (i' : ℚ) := by exact_mod_cast hi
  have h2 : (j : ℚ) ≤ (j' : ℚ) := by exact_mod_cast hj
  nlinarith [mul_nonneg (mul_nonneg hf (sub_nonneg.mpr h1)) (sub_nonneg.mpr h2)]

/-- Monge transfer one row down: an upper-side domination fact at row `i`
descends to row `i - 1`. -/
lemma chain_down_pred (c : ℕ → ℕ → ℚ)
    (hM : ∀ i i' j j' : ℕ, i ≤ i' → j ≤ j' → c i j + c i' j' ≤ c i j' + c i' j)
    (L lb i : ℕ) (h : ∀ j, lb < j → j < L → c i lb ≤ c i j) :
    ∀ j, lb < j → j < L → c (i - 1) lb ≤ c (i - 1) j := by
  intro j hj hjL
  have hm := hM (i - 1) i lb j (Nat.sub_le i 1) (le_of_lt hj)
  have h2 := h j hj hjL
  linarith

/-- Monge transfer one row up: a lower-side domination fact at row `i`
ascends to row `i + 1`. -/
lemma chain_up_succ (c : ℕ → ℕ → ℚ)
    (hM : ∀ i i' j j' : ℕ, i ≤ i' → j ≤ j' → c i j + c i' j' ≤ c i j' + c i' j)
    (L lb i : ℕ) (h : ∀ j, j < lb → c i lb ≤ c i j) :
    ∀ j, j < lb → c (i + 1) lb ≤ c (i + 1) j := by
  intro j hj
  have hm := hM i (i + 1) j lb (Nat.le_succ i) (le_of_lt hj)
  have h2 := h j hj
  linarith

/-- Characterization of the downward scan of a backward pass: the result
is a cost-consistent improvement, every point strictly above the returned
backpointer and within the scan start is no better, and the two edge
facts used for the bound invariants. -/
lemma scanDownBreak_spec (c : ℕ → ℚ) :
    ∀ (fuel j bj : ℕ) (bc : ℚ), c bj = bc → fuel ≤ j →
      c (scanDownBreak c fuel j bj bc).1 = (scanDownBreak c fuel j bj bc).2 ∧
      (scanDownBreak c fuel j bj bc).2 ≤ bc ∧
      ((scanDownBreak c fuel j bj bc).1 = bj ∨
        (j - fuel < (scanDownBreak c fuel j bj bc).1 ∧
         (scanDownBreak c fuel j bj bc).1 ≤ j)) ∧
      (∀ j', (scanDownBreak c fuel j bj bc).1 < j' → j - fuel < j' → j' ≤ j →
        (scanDownBreak c fuel j bj bc).2 ≤ c j') ∧
      ((scanDownBreak c fuel j bj bc).1 ≠ bj →
        (scanDownBreak c fuel j bj bc).2 < bc) ∧
      ((scanDownBreak c fuel j bj bc).1 = bj →
        (scanDownBreak c fuel j bj bc).2 = bc) ∧
      ((scanDownBreak c fuel j bj bc).1 ≠ bj →
        j - fuel < (scanDownBreak c fuel j bj bc).1 - 1 →
        (scanDownBreak c fuel j bj bc).2 ≤ c ((scanDownBreak c fuel j bj bc).1 - 1)) ∧
      ((scanDownBreak c fuel j bj bc).1 = bj → 1 ≤ fuel →
        (scanDownBreak c fuel j bj bc).2 ≤ c j) := by
  intro fuel
  induction fuel with
  | zero =>
      intro j bj bc hcb _
      refine ⟨hcb, le_refl _, Or.inl rfl, ?_, ?_, ?_, ?_, ?_⟩
      · intro j' h1 h2 h3; omega
      · intro h; exact absurd rfl h
      · intro _; rfl
      · intro h; exact absurd rfl h
      · intro _ h; omega
  | succ fuel ih =>
      intro j bj bc hcb hfj
      rw [scanDownBreak]
      split_ifs with h1 h2
      · -- strict improvement at j: recurse with (j, c j)
        obtain ⟨d1, d2, d3, d4, d5, d6, d7, d8⟩ :=
          ih (j - 1) j (c j) rfl (by omega)
        have hlt : (scanDownBreak c fuel (j - 1) j (c j)).2 < bc :=
          lt_of_le_of_lt d2 h1
        have hne : (scanDownBreak c fuel (j - 1) j (c j)).1 ≠ bj := by
          intro he
          rw [he, hcb] at d1
          rw [← d1] at hlt
          exact lt_irrefl _ hlt
        refine ⟨d1, le_of_lt hlt, ?_, ?_, fun _ => hlt, ?_, ?_, ?_⟩
        · rcases d3 with h | h
          · exact Or.inr ⟨by omega, by omega⟩
          · exact Or.inr ⟨by omega, by omega⟩
        · intro j' hj1 hj2 hj3
          rcases Nat.lt_or_ge j' j with hlt' | hge
          · exact d4 j' hj1 (by omega) (by omega)
          · have he : j' = j := by omega
            rw [he]; exact d2
        · intro he; exact absurd he hne
        · intro _ hcond
          rcases d3 with h | h
          · rw [h] at hcond ⊢
            exact d8 h (by omega)
          · exact d7 (by omega) (by omega)
        · intro he; exact absurd he hne
      · -- no improvement, best above j: break
        refine ⟨hcb, le_refl _, Or.inl rfl, ?_, ?_, ?_, ?_, ?_⟩
        · intro j' hj1 hj2 hj3; omega
        · intro h; exact absurd rfl h
        · intro _; rfl
        · intro h; exact absurd rfl h
        · intro _ _; exact le_of_not_lt h1
      · -- no improvement, best at or below j: continue
        obtain ⟨d1, d2, d3, d4, d5, d6, d7, d8⟩ :=
          ih (j - 1) bj bc hcb (by omega)
        refine ⟨d1, d2, ?_, ?_, d5, d6, ?_, ?_⟩
        · rcases d3 with h | h
          · exact Or.inl h
          · exact Or.inr ⟨by omega, by omega⟩
        · intro j' hj1 hj2 hj3
          rcases Nat.lt_or_ge j' j with hlt' | hge
          · exact d4 j' hj1 (by omega) (by omega)
          · have he : j' = j := by omega
            rw [he]
            exact le_trans d2 (le_of_not_lt h1)
        · intro hne2 hcond
          exact d7 hne2 (by omega)
        · intro he _
          rw [d6 he]
          exact le_of_not_lt h1

/-- Characterization of the upward scan of a forward pass (mirror of
`scanDownBreak_spec`). -/
lemma scanUpBreak2_spec (c : ℕ → ℚ) :
    ∀ (fuel j bj : ℕ) (bc : ℚ), c bj = bc →
      c (scanUpBreak2 c fuel j bj bc).1 = (scanUpBreak2 c fuel j bj bc).2 ∧
      (scanUpBreak2 c fuel j bj bc).2 ≤ bc ∧
      ((scanUpBreak2 c fuel j bj bc).1 = bj ∨
        (j ≤ (scanUpBreak2 c fuel j bj bc).1 ∧
         (scanUpBreak2 c fuel j bj bc).1 < j + fuel)) ∧
      (∀ j', j ≤ j' → j' < j + fuel → j' < (scanUpBreak2 c fuel j bj bc).1 →
        (scanUpBreak2 c fuel j bj bc).2 ≤ c j') ∧
      ((scanUpBreak2 c fuel j bj bc).1 ≠ bj →
        (scanUpBreak2 c fuel j bj bc).2 < bc) ∧
      ((scanUpBreak2 c fuel j bj bc).1 = bj →
        (scanUpBreak2 c fuel j bj bc).2 = bc) ∧
      ((scanUpBreak2 c fuel j bj bc).1 ≠ bj →
        (scanUpBreak2 c fuel j bj bc).1 + 1 < j + fuel →
        (scanUpBreak2 c fuel j bj bc).2 ≤ c ((scanUpBreak2 c fuel j bj bc).1 + 1)) ∧
      ((scanUpBreak2 c fuel j bj bc).1 = bj → 1 ≤ fuel →
        (scanUpBreak2 c fuel j bj bc).2 ≤ c j) := by
  intro fuel
  induction fuel with
  | zero =>
      intro j bj bc hcb
      refine ⟨hcb, le_refl _, Or.inl rfl, ?_, ?_, ?_, ?_, ?_⟩
      · intro j' h1 h2 h3; omega
      · intro h; exact absurd rfl h
      · intro _; rfl
      · intro h; exact absurd rfl h
      · intro _ h; omega
  | succ fuel ih =>
      intro j bj bc hcb
      rw [scanUpBreak2]
      split_ifs with h1 h2
      · obtain ⟨d1, d2, d3, d4, d5, d6, d7, d8⟩ := ih (j + 1) j (c j) rfl
        have hlt : (scanUpBreak2 c fuel (j + 1) j (c j)).2 < bc :=
          lt_of_le_of_lt d2 h1
        have hne : (scanUpBreak2 c fuel (j + 1) j (c j)).1 ≠ bj := by
          intro he
          rw [he, hcb] at d1
          rw [← d1] at hlt
          exact lt_irrefl _ hlt
        refine ⟨d1, le_of_lt hlt, ?_, ?_, fun _ => hlt, ?_, ?_, ?_⟩
        · rcases d3 with h | h
          · exact Or.inr ⟨by omega, by omega⟩
          · exact Or.inr ⟨by omega, by omega⟩
        · intro j' hj1 hj2 hj3
          rcases Nat.lt_or_ge j j' with hlt' | hge
          · exact d4 j' (by omega) (by omega) hj3
          · have he : j' = j := by omega
            rw [he]; exact d2
        · intro he; exact absurd he hne
        · intro _ hcond
          rcases d3 with h | h
          · rw [h] at hcond ⊢
            exact d8 h (by omega)
          · exact d7 (by omega) (by omega)
        · intro he; exact absurd he hne
      · refine ⟨hcb, le_refl _, Or.inl rfl, ?_, ?_, ?_, ?_, ?_⟩
        · intro j' hj1 hj2 hj3; omega
        · intro h; exact absurd rfl h
        · intro _; rfl
        · intro h; exact absurd rfl h
        · intro _ _; exact le_of_not_lt h1
      · obtain ⟨d1, d2, d3, d4, d5, d6, d7, d8⟩ := ih (j + 1) bj bc hcb
        refine ⟨d1, d2, ?_, ?_, d5, d6, ?_, ?_⟩
        · rcases d3 with h | h
          · exact Or.inl h
          · exact Or.inr ⟨by omega, by omega⟩
        · intro j' hj1 hj2 hj3
          rcases Nat.lt_or_ge j j' with hlt' | hge
          · exact d4 j' (by omega) (by omega) hj3
          · have he : j' = j := by omega
            rw [he]
            exact le_trans d2 (le_of_not_lt h1)
        · intro hne2 hcond
          exact d7 hne2 (by omega)
        · intro he _
          rw [d6 he]
          exact le_of_not_lt h1

/-- Characterization of the first-pass scan: starting just above the
current best with strictly decreasing costs, the result is the first
local minimum; everything from the start through the result is no better,
and the break point is no better either. -/
lemma scanUpBreak_spec (c : ℕ → ℚ) :
    ∀ (fuel j bj : ℕ) (bc : ℚ), c bj = bc → j = bj + 1 →
      c (scanUpBreak c fuel j bj bc).1 = (scanUpBreak c fuel j bj bc).2 ∧
      (scanUpBreak c fuel j bj bc).2 ≤ bc ∧
      bj ≤ (scanUpBreak c fuel j bj bc).1 ∧
      (scanUpBreak c fuel j bj bc).1 ≤ bj + fuel ∧
      (∀ k, bj ≤ k → k ≤ (scanUpBreak c fuel j bj bc).1 →
        (scanUpBreak c fuel j bj bc).2 ≤ c k) ∧
      ((scanUpBreak c fuel j bj bc).1 + 1 ≤ bj + fuel →
        (scanUpBreak c fuel j bj bc).2 ≤ c ((scanUpBreak c fuel j bj bc).1 + 1)) := by
  intro fuel
  induction fuel with
  | zero =>
      intro j bj bc hcb hj
      simp only [scanUpBreak]
      refine ⟨hcb, le_refl _, le_refl _, by omega, ?_, ?_⟩
      · intro k h1 h2
        have he : k = bj := by omega
        rw [he, hcb]
      · intro h; omega
  | succ fuel ih =>
      intro j bj bc hcb hj
      rw [scanUpBreak]
      split_ifs with h1
      · obtain ⟨d1, d2, d3, d4, d5, d6⟩ := ih (j + 1) j (c j) rfl rfl
        refine ⟨d1, le_trans d2 (le_of_lt h1), by omega, by omega, ?_, ?_⟩
        · intro k hk1 hk2
          rcases Nat.lt_or_ge k j with hlt' | hge
          · have : k = bj := by omega
            rw [this, hcb]
            exact le_trans d2 (le_of_lt h1)
          · exact d5 k hge hk2
        · intro h
          exact d6 (by omega)
      · refine ⟨hcb, le_refl _, le_refl _, by omega, ?_, ?_⟩
        · intro k h1 h2
          have : k = bj := by omega
          rw [this, hcb]
        · intro h
          rw [show bj + 1 = j by omega]
          exact le_of_not_lt h1

/-- Characterization of the naive scan: it returns the least index
attaining the minimum cost over all states. -/
lemma naiveScan_spec (c : ℕ → ℚ) :
    ∀ (fuel j bj : ℕ) (bc : ℚ), c bj = bc → bj < j →
      (∀ k, k < j → bc ≤ c k) → (∀ k, k < bj → bc < c k) →
      c (naiveScan c fuel j bj bc).1 = (naiveScan c fuel j bj bc).2 ∧
      (∀ k, k < j + fuel → (naiveScan c fuel j bj bc).2 ≤ c k) ∧
      (∀ k, k < (naiveScan c fuel j bj bc).1 →
        (naiveScan c fuel j bj bc).2 < c k) ∧
      (naiveScan c fuel j bj bc).1 < j + fuel := by
  intro fuel
  induction fuel with
  | zero =>
      intro j bj bc hcb hbj hcov hstrict
      simp only [naiveScan]
      exact ⟨hcb, fun k hk => hcov k (by omega), hstrict, by omega⟩
  | succ fuel ih =>
      intro j bj bc hcb hbj hcov hstrict
      rw [naiveScan]
      split_ifs with h1
      · obtain ⟨d1, d2, d3, d4⟩ := ih (j + 1) j (c j) rfl (by omega)
          (by
            intro k hk
            rcases Nat.lt_or_ge k j with h | h
            · exact le_trans (le_of_lt h1) (hcov k h)
            · have : k = j := by omega
              rw [this])
          (by
            intro k hk
            exact lt_of_lt_of_le h1 (hcov k (by omega)))
        exact ⟨d1, fun k hk => d2 k (by omega), d3, by omega⟩
      · obtain ⟨d1, d2, d3, d4⟩ := ih (j + 1) bj bc hcb (by omega)
          (by
            intro k hk
            rcases Nat.lt_or_ge k j with h | h
            · exact hcov k h
            · have : k = j := by omega
              rw [this]
              exact le_of_not_lt h1)
          hstrict
        exact ⟨d1, fun k hk => d2 k (by omega), d3, by omega⟩

/-- Pass 0 establishes the backward-entry invariants for every state,
given the Monge property of the cost. -/
lemma pass0Loop_spec (c : ℕ → ℕ → ℚ) (L : ℕ)
    (hM : ∀ i i' j j' : ℕ, i ≤ i' → j ≤ j' → c i j + c i' j' ≤ c i j' + c i' j) :
    ∀ (rem i s : ℕ), i + rem ≤ L → (0 < rem → s < L) →
      (∀ j, j < s → c i s ≤ c i j) →
      (pass0Loop c L rem i s).length = rem ∧
      ∀ k, k < rem →
        RowOkB c L (i + k) ((pass0Loop c L rem i s).getD k default) := by
  intro rem
  induction rem with
  | zero =>
      intro i s _ _ _
      exact ⟨rfl, fun k hk => absurd hk (by omega)⟩
  | succ rem ih =>
      intro i s hrem hsL hchain
      have hs : s < L := hsL (by omega)
      rw [pass0Loop]
      obtain ⟨u1, u2, u3, u4, u5, u6⟩ :=
        scanUpBreak_spec (c i) (L - (s + 1)) (s + 1) s (c i s) rfl rfl
      set r := scanUpBreak (c i) (L - (s + 1)) (s + 1) s (c i s) with hr
      have hr1L : r.1 ≤ L - 1 := by omega
      have hdown : ∀ j, j < r.1 → c i r.1 ≤ c i j := by
        intro j hj
        rw [u1]
        rcases Nat.lt_or_ge j s with h | h
        · exact le_trans u2 (hchain j h)
        · exact u5 j h (by omega)
      obtain ⟨ihlen, ihok⟩ := ih (i + 1) r.1 (by omega) (fun _ => by omega)
        (chain_up_succ c hM L r.1 i hdown)
      have hhead : RowOkB c L i ⟨r.1, r.2, r.1, L - 1⟩ := by
        refine ⟨⟨u1.symm, le_refl _, hr1L, ?_, ?_, le_of_eq u1.symm,
          ?_, ?_⟩, ?_⟩
        · dsimp only
          omega
        · intro j hj
          dsimp only at hj ⊢
          rw [← u1]
          exact hdown j hj
        · intro hcond
          dsimp only at hcond ⊢
          exact u6 (by omega)
        · intro j hj1 hj2
          dsimp only at hj1
          exact absurd hj2 (by omega)
        · intro j hj
          dsimp only at hj ⊢
          rw [← u1]
          exact hdown j hj
      constructor
      · simp [ihlen]
      · intro k hk
        cases k with
        | zero => simpa using hhead
        | succ k =>
            rw [List.getD_cons_succ]
            rw [show i + (k + 1) = (i + 1) + k by omega]
            exact ihok k (by omega)

/-- Upgrading backward-entry invariants to forward-entry invariants once
the upper-side domination fact is available. -/
lemma rowOkF_of_up (c : ℕ → ℕ → ℚ) (L i : ℕ) (st : SearchSt)
    (hok : RowOkB c L i st)
    (hup : ∀ j, st.bp < j → j < L → st.tfc ≤ c i j) : RowOkF c L i st := by
  refine ⟨hok.toRowOk, ?_, ?_, hup⟩
  · rcases Nat.lt_or_ge st.bp st.hi with h | h
    · exact hup st.hi h hok.hiL
    · have he : st.bp = st.hi := le_antisymm hok.bphi h
      rw [← he, ← hok.tcon]
  · intro h1
    rcases Nat.lt_trichotomy (st.hi - 1) st.bp with h | h | h
    · exact hok.dn _ h
    · rw [h, ← hok.tcon]
    · exact hup _ h (by have := hok.hiL; omega)

/-- A backward pass over a (descending) suffix of the states, entered
with the backward invariants and the `last_backpointer` chain fact,
leaves every state satisfying the forward-entry invariants; and when it
reports no change the backpointers and costs are untouched. -/
lemma backwardAux_spec (c : ℕ → ℕ → ℚ) (L : ℕ)
    (hM : ∀ i i' j j' : ℕ, i ≤ i' → j ≤ j' → c i j + c i' j' ≤ c i j' + c i' j) :
    ∀ (sts : List SearchSt) (i lb : ℕ) (ch : Bool),
      sts.length ≤ i + 1 → lb < L →
      (∀ j, lb < j → j < L → c i lb ≤ c i j) →
      (∀ k, k < sts.length → RowOkB c L (i - k) (sts.getD k default)) →
      (backwardAux c i lb ch sts).1.length = sts.length ∧
      (∀ k, k < sts.length →
        RowOkF c L (i - k) ((backwardAux c i lb ch sts).1.getD k default)) ∧
      ((backwardAux c i lb ch sts).2 = false → ch = false) ∧
      ((backwardAux c i lb ch sts).2 = false →
        ∀ k, k < sts.length →
          ((backwardAux c i lb ch sts).1.getD k default).bp =
            (sts.getD k default).bp ∧
          ((backwardAux c i lb ch sts).1.getD k default).tfc =
            (sts.getD k default).tfc) := by
  intro sts
  induction sts with
  | nil =>
      intro i lb ch _ _ _ _
      refine ⟨rfl, ?_, fun h => h, ?_⟩
      · intro k hk
        exact absurd hk (by simp)
      · intro _ k hk
        exact absurd hk (by simp)
  | cons st rest ih =>
      intro i lb ch hlen hlbL hCH hok
      have hok0 : RowOkB c L i st := by
        have h := hok 0 (by simp)
        simpa using h
      have hokrest : ∀ k, k < rest.length →
          RowOkB c L (i - 1 - k) (rest.getD k default) := by
        intro k hk
        have h := hok (k + 1) (by simp; omega)
        rw [List.getD_cons_succ, show i - (k + 1) = i - 1 - k by omega] at h
        exact h
      have hlenrest : rest.length ≤ (i - 1) + 1 := by
        simp only [List.length_cons] at hlen
        omega
      have hloL : st.lo < L :=
        lt_of_le_of_lt (le_trans hok0.lobp hok0.bphi) hok0.hiL
      have hbpL : st.bp < L := lt_of_le_of_lt hok0.bphi hok0.hiL
      rw [backwardAux]
      try dsimp only
      rcases (show min lb st.hi = st.lo ∨
          (¬ min lb st.hi = st.lo ∧ st.bp = min lb st.hi) ∨
          (¬ min lb st.hi = st.lo ∧ ¬ st.bp = min lb st.hi) from by tauto) with
        hc1 | ⟨hc1, hc2⟩ | ⟨hc1, hc2⟩
      · -- skip: upper = lower
        simp only [if_pos hc1]
        have hup : ∀ j, st.bp < j → j < L → st.tfc ≤ c i j := by
          rcases le_or_lt st.hi lb with hcase | hcase
          · have hlohi : st.lo = st.hi := by
              rw [min_eq_right hcase] at hc1
              omega
            have hbp : st.bp = st.hi := by
              have h1 := hok0.lobp
              have h2 := hok0.bphi
              omega
            intro j hj hjL
            exact hok0.shi j (by omega) hjL
          · have hlolb : st.lo = lb := by
              rw [min_eq_left (le_of_lt hcase)] at hc1
              omega
            intro j hj hjL
            have h1 : c i lb ≤ c i j := by
              refine hCH j ?_ hjL
              have := hok0.lobp
              omega
            have h2 : st.tfc ≤ c i lb := by
              rw [← hlolb]
              exact hok0.nbr0
            exact le_trans h2 h1
        have hCHout : ∀ j, st.lo < j → j < L → c i st.lo ≤ c i j := by
          rcases le_or_lt st.hi lb with hcase | hcase
          · have hlohi : st.lo = st.hi := by
              rw [min_eq_right hcase] at hc1
              omega
            have hbp : st.bp = st.hi := by
              have h1 := hok0.lobp
              have h2 := hok0.bphi
              omega
            intro j hj hjL
            have h1 := hok0.shi j (by omega) hjL
            have h2 : c i st.lo = st.tfc := by
              rw [hok0.tcon, hbp, hlohi]
            rw [h2]
            exact h1
          · have hlolb : st.lo = lb := by
              rw [min_eq_left (le_of_lt hcase)] at hc1
              omega
            intro j hj hjL
            rw [hlolb]
            rw [hlolb] at hj
            exact hCH j hj hjL
        obtain ⟨ihlen, ihok, ihflag, ihpres⟩ :=
          ih (i - 1) st.lo ch hlenrest hloL
            (chain_down_pred c hM L st.lo i hCHout) hokrest
        refine ⟨by simp only [List.length_cons, ihlen], ?_, ihflag, ?_⟩
        · intro k hk
          cases k with
          | zero => simpa using rowOkF_of_up c L i st hok0 hup
          | succ k =>
              rw [List.getD_cons_succ,
                show i - (k + 1) = i - 1 - k by omega]
              exact ihok k (by simpa using hk)
        · intro hfl k hk
          cases k with
          | zero => exact ⟨rfl, rfl⟩
          | succ k =>
              rw [List.getD_cons_succ, List.getD_cons_succ]
              exact ihpres hfl k (by simpa using hk)
      · -- skip: bp = upper
        simp only [if_neg hc1, if_pos hc2]
        have hup : ∀ j, st.bp < j → j < L → st.tfc ≤ c i j := by
          rcases le_or_lt st.hi lb with hcase | hcase
          · have hbp : st.bp = st.hi := by
              rw [min_eq_right hcase] at hc2
              exact hc2
            intro j hj hjL
            exact hok0.shi j (by omega) hjL
          · have hbp : st.bp = lb := by
              rw [min_eq_left (le_of_lt hcase)] at hc2
              exact hc2
            intro j hj hjL
            have h1 : c i lb ≤ c i j := hCH j (by omega) hjL
            rw [hok0.tcon, hbp]
            exact h1
        have hCHout : ∀ j, st.bp < j → j < L → c i st.bp ≤ c i j := by
          intro j hj hjL
          rw [← hok0.tcon]
          exact hup j hj hjL
        obtain ⟨ihlen, ihok, ihflag, ihpres⟩ :=
          ih (i - 1) st.bp ch hlenrest hbpL
            (chain_down_pred c hM L st.bp i hCHout) hokrest
        refine ⟨by simp only [List.length_cons, ihlen], ?_, ihflag, ?_⟩
        · intro k hk
          cases k with
          | zero => simpa using rowOkF_of_up c L i st hok0 hup
          | succ k =>
              rw [List.getD_cons_succ,
                show i - (k + 1) = i - 1 - k by omega]
              exact ihok k (by simpa using hk)
        · intro hfl k hk
          cases k with
          | zero => exact ⟨rfl, rfl⟩
          | succ k =>
              rw [List.getD_cons_succ, List.getD_cons_succ]
              exact ihpres hfl k (by simpa using hk)
      · -- processed: run the downward scan
        simp only [if_neg hc1, if_neg hc2]
        set u := min lb st.hi with hu
        set s := scanDownBreak (c i) (u - (st.lo + 1)) u st.bp st.tfc with hsdef
        obtain ⟨s1, s2, s3, s4, s5, s6, s7, s8⟩ :=
          scanDownBreak_spec (c i) (u - (st.lo + 1)) u st.bp st.tfc
            hok0.tcon.symm (by omega)
        rw [← hsdef] at s1 s2 s3 s4 s5 s6 s7 s8
        have huhi : u ≤ st.hi := min_le_right lb st.hi
        have huL : u < L := lt_of_le_of_lt huhi hok0.hiL
        have hF : c i s.1 = s.2 ∧ s.2 ≤ st.tfc ∧ st.lo ≤ s.1 ∧ s.1 < L ∧
            (∀ j, s.1 < j → j < L → s.2 ≤ c i j) ∧
            (1 ≤ s.1 → s.2 ≤ c i (s.1 - 1)) ∧
            (s.1 = st.bp → s.2 = st.tfc) := by
          rcases le_or_lt u (st.lo + 1) with hA | hB
          · -- empty scan: s = (st.bp, st.tfc)
            have hs0 : s = (st.bp, st.tfc) := by
              rw [hsdef, show u - (st.lo + 1) = 0 by omega]
              rfl
            have hupA : ∀ j, st.bp < j → j < L → st.tfc ≤ c i j := by
              rcases le_or_lt st.hi lb with hcase | hcase
              · have huhi2 : u = st.hi := min_eq_right hcase
                have hhi : st.hi = st.lo + 1 := by
                  have h1 := hok0.lobp
                  have h2 := hok0.bphi
                  omega
                have hbp : st.bp = st.lo := by
                  have h1 := hok0.lobp
                  have h2 := hok0.bphi
                  rw [huhi2] at hc2
                  omega
                intro j hj hjL
                rcases Nat.lt_or_ge (st.lo + 1) j with h | h
                · exact hok0.shi j (by omega) hjL
                · have he : j = st.lo + 1 := by omega
                  rw [he]
                  exact hok0.nbr1 (by omega)
              · have hulb : u = lb := min_eq_left (le_of_lt hcase)
                have hclb : st.tfc ≤ c i lb := by
                  rcases Nat.lt_trichotomy lb st.lo with h | h | h
                  · exact hok0.slo lb h
                  · rw [h]
                    exact hok0.nbr0
                  · have he : lb = st.lo + 1 := by omega
                    rw [he]
                    exact hok0.nbr1 (by omega)
                intro j hj hjL
                rcases Nat.lt_or_ge lb j with h | h
                · exact le_trans hclb (hCH j h hjL)
                · have he : j = lb := by
                    have := hok0.lobp
                    omega
                  rw [he]
                  exact hclb
            rw [hs0]
            refine ⟨hok0.tcon.symm, le_refl _, hok0.lobp, hbpL, hupA, ?_,
              fun _ => rfl⟩
            intro h
            exact hok0.dn _ (by omega)
          · -- nonempty scan
            have hfuel : u - (u - (st.lo + 1)) = st.lo + 1 := by omega
            rw [hfuel] at s3 s4 s7
            have hs3 : s.1 = st.bp ∨ (st.lo + 1 < s.1 ∧ s.1 ≤ u) := s3
            have hlole : st.lo ≤ s.1 := by
              rcases hs3 with h | h
              · rw [h]; exact hok0.lobp
              · omega
            have hs1L : s.1 < L := by
              rcases hs3 with h | h
              · rw [h]; exact hbpL
              · omega
            have hcovu : ∀ j, s.1 < j → j ≤ u → s.2 ≤ c i j := by
              intro j hj hju
              rcases Nat.lt_or_ge (st.lo + 1) j with h | h
              · exact s4 j hj h hju
              · have hj2 : j = st.lo + 1 := by omega
                rw [hj2]
                exact le_trans s2 (hok0.nbr1 (by omega))
            have hcstart : s.2 ≤ c i u := by
              rcases Nat.lt_trichotomy s.1 u with h | h | h
              · exact hcovu u h (le_refl u)
              · rw [← h]
                exact le_of_eq s1.symm
              · have hsbp : s.1 = st.bp := by
                  rcases hs3 with h2 | h2
                  · exact h2
                  · omega
                exact s8 hsbp (by omega)
            have hupB : ∀ j, s.1 < j → j < L → s.2 ≤ c i j := by
              intro j hj hjL
              rcases le_or_lt j u with h | h
              · exact hcovu j hj h
              · rcases le_or_lt st.hi lb with hcase | hcase
                · have huhi2 : u = st.hi := min_eq_right hcase
                  refine le_trans s2 (hok0.shi j ?_ hjL)
                  omega
                · have hulb : u = lb := min_eq_left (le_of_lt hcase)
                  refine le_trans hcstart ?_
                  rw [hulb]
                  exact hCH j (by omega) hjL
            refine ⟨s1, s2, hlole, hs1L, hupB, ?_, s6⟩
            intro h
            rcases eq_or_ne s.1 st.bp with he | hne
            · rw [he, s6 he]
              exact hok0.dn _ (by omega)
            · rcases Nat.lt_or_ge (st.lo + 1) (s.1 - 1) with h2 | h2
              · exact s7 hne h2
              · have h3 : st.lo + 1 < s.1 ∧ s.1 ≤ u := by
                  rcases hs3 with h4 | h4
                  · exact absurd h4 hne
                  · exact h4
                have he2 : s.1 - 1 = st.lo + 1 := by omega
                rw [he2]
                exact le_trans s2 (hok0.nbr1 (by omega))
        obtain ⟨f1, f2, f3, f4, f5, f6, f7⟩ := hF
        have hCHout : ∀ j, s.1 < j → j < L → c i s.1 ≤ c i j := by
          intro j hj hjL
          rw [f1]
          exact f5 j hj hjL
        obtain ⟨ihlen, ihok, ihflag, ihpres⟩ :=
          ih (i - 1) s.1 (ch || decide (s.1 ≠ st.bp)) hlenrest f4
            (chain_down_pred c hM L s.1 i hCHout) hokrest
        have hheadF : RowOkF c L i
            (if s.1 ≠ st.bp then SearchSt.mk s.1 s.2 st.lo s.1
             else SearchSt.mk st.bp st.tfc st.lo s.1) := by
          have hbp2 : (if s.1 ≠ st.bp then SearchSt.mk s.1 s.2 st.lo s.1
              else SearchSt.mk st.bp st.tfc st.lo s.1).bp = s.1 := by
            split_ifs with h
            · rfl
            · push_neg at h
              rw [h]
          have htfc2 : (if s.1 ≠ st.bp then SearchSt.mk s.1 s.2 st.lo s.1
              else SearchSt.mk st.bp st.tfc st.lo s.1).tfc = s.2 := by
            split_ifs with h
            · rfl
            · push_neg at h
              rw [f7 h]
          have hlo2 : (if s.1 ≠ st.bp then SearchSt.mk s.1 s.2 st.lo s.1
              else SearchSt.mk st.bp st.tfc st.lo s.1).lo = st.lo := by
            split_ifs <;> rfl
          have hhi2 : (if s.1 ≠ st.bp then SearchSt.mk s.1 s.2 st.lo s.1
              else SearchSt.mk st.bp st.tfc st.lo s.1).hi = s.1 := by
            split_ifs <;> rfl
          refine ⟨⟨?_, ?_, ?_, ?_, ?_, ?_, ?_, ?_⟩, ?_, ?_, ?_⟩
          · rw [htfc2, hbp2]
            exact f1.symm
          · rw [hlo2, hbp2]
            exact f3
          · rw [hbp2, hhi2]
          · rw [hhi2]
            exact f4
          · rw [hlo2, htfc2]
            intro j hj
            exact le_trans f2 (hok0.slo j hj)
          · rw [hlo2, htfc2]
            exact le_trans f2 hok0.nbr0
          · rw [hlo2, htfc2]
            intro h
            exact le_trans f2 (hok0.nbr1 h)
          · rw [hhi2, htfc2]
            exact f5
          · rw [hhi2, htfc2]
            exact le_of_eq f1.symm
          · rw [hhi2, htfc2]
            exact f6
          · rw [hbp2, htfc2]
            exact f5
        refine ⟨by simp only [List.length_cons, ihlen], ?_, ?_, ?_⟩
        · intro k hk
          cases k with
          | zero => simpa using hheadF
          | succ k =>
              rw [List.getD_cons_succ,
                show i - (k + 1) = i - 1 - k by omega]
              exact ihok k (by simpa using hk)
        · intro hfl
          have h2 := ihflag hfl
          rcases Bool.or_eq_false_iff.mp h2 with ⟨h3, _⟩
          exact h3
        · intro hfl k hk
          have h2 := ihflag hfl
          rcases Bool.or_eq_false_iff.mp h2 with ⟨h3, h4⟩
          have hsbp : s.1 = st.bp := by
            have h5 := of_decide_eq_false h4
            exact not_not.mp h5
          cases k with
          | zero =>
              simp only [List.getD_cons_zero]
              rw [hsbp]
              constructor
              · split_ifs <;> rfl
              · split_ifs with h5
                · exact absurd rfl h5
                · rfl
          | succ k =>
              rw [List.getD_cons_succ, List.getD_cons_succ]
              exact ihpres hfl k (by simpa using hk)

/-- A forward pass over an (ascending) suffix of the states, entered
with the forward invariants and the chain fact, leaves every state
satisfying the backward-entry invariants; and when it reports no change
the backpointers and costs are untouched. -/
lemma forwardAux_spec (c : ℕ → ℕ → ℚ) (L : ℕ)
    (hM : ∀ i i' j j' : ℕ, i ≤ i' → j ≤ j' → c i j + c i' j' ≤ c i j' + c i' j) :
    ∀ (sts : List SearchSt) (i lb : ℕ) (ch : Bool),
      lb < L →
      (∀ j, j < lb → c i lb ≤ c i j) →
      (∀ k, k < sts.length → RowOkF c L (i + k) (sts.getD k default)) →
      (forwardAux c i lb ch sts).1.length = sts.length ∧
      (∀ k, k < sts.length →
        RowOkB c L (i + k) ((forwardAux c i lb ch sts).1.getD k default)) ∧
      ((forwardAux c i lb ch sts).2 = false → ch = false) ∧
      ((forwardAux c i lb ch sts).2 = false →
        ∀ k, k < sts.length →
          ((forwardAux c i lb ch sts).1.getD k default).bp =
            (sts.getD k default).bp ∧
          ((forwardAux c i lb ch sts).1.getD k default).tfc =
            (sts.getD k default).tfc) := by
  intro sts
  induction sts with
  | nil =>
      intro i lb ch _ _ _
      refine ⟨rfl, ?_, fun h => h, ?_⟩
      · intro k hk
        exact absurd hk (by simp)
      · intro _ k hk
        exact absurd hk (by simp)
  | cons st rest ih =>
      intro i lb ch hlbL hCH hok
      have hok0 : RowOkF c L i st := by
        have h := hok 0 (by simp)
        simpa using h
      have hokrest : ∀ k, k < rest.length →
          RowOkF c L ((i + 1) + k) (rest.getD k default) := by
        intro k hk
        have h := hok (k + 1) (by simp; omega)
        rw [List.getD_cons_succ, show i + (k + 1) = (i + 1) + k by omega] at h
        exact h
      have hloL : st.lo < L :=
        lt_of_le_of_lt (le_trans hok0.lobp hok0.bphi) hok0.hiL
      have hbpL : st.bp < L := lt_of_le_of_lt hok0.bphi hok0.hiL
      rw [forwardAux]
      try dsimp only
      rcases (show st.hi = max lb st.lo ∨
          (¬ st.hi = max lb st.lo ∧ st.bp = max lb st.lo) ∨
          (¬ st.hi = max lb st.lo ∧ ¬ st.bp = max lb st.lo) from by tauto) with
        hc1 | ⟨hc1, hc2⟩ | ⟨hc1, hc2⟩
      · -- skip: upper = lower
        simp only [if_pos hc1]
        have hdn : ∀ j, j < st.bp → st.tfc ≤ c i j := by
          rcases le_or_lt lb st.lo with hcase | hcase
          · have hl : max lb st.lo = st.lo := max_eq_right hcase
            rw [hl] at hc1
            have hbp : st.bp = st.lo := by
              have h1 := hok0.lobp
              have h2 := hok0.bphi
              omega
            intro j hj
            exact hok0.slo j (by omega)
          · have hl : max lb st.lo = lb := max_eq_left (le_of_lt hcase)
            rw [hl] at hc1
            intro j hj
            have hjlb : j < lb := by
              have := hok0.bphi
              omega
            have h1 : c i lb ≤ c i j := hCH j hjlb
            have h2 : st.tfc ≤ c i lb := by
              rw [← hc1]
              exact hok0.nbr2a
            exact le_trans h2 h1
        have hCHout : ∀ j, j < max lb st.lo → c i (max lb st.lo) ≤ c i j := by
          rcases le_or_lt lb st.lo with hcase | hcase
          · have hl : max lb st.lo = st.lo := max_eq_right hcase
            rw [hl] at hc1 ⊢
            have hbp : st.bp = st.lo := by
              have h1 := hok0.lobp
              have h2 := hok0.bphi
              omega
            intro j hj
            have h2 : c i st.lo = st.tfc := by
              rw [hok0.tcon, hbp]
            rw [h2]
            exact hok0.slo j hj
          · have hl : max lb st.lo = lb := max_eq_left (le_of_lt hcase)
            rw [hl]
            exact hCH
        have hmaxL : max lb st.lo < L := max_lt hlbL hloL
        obtain ⟨ihlen, ihok, ihflag, ihpres⟩ :=
          ih (i + 1) (max lb st.lo) ch hmaxL
            (chain_up_succ c hM L (max lb st.lo) i hCHout) hokrest
        refine ⟨by simp only [List.length_cons, ihlen], ?_, ihflag, ?_⟩
        · intro k hk
          cases k with
          | zero => simpa using (⟨hok0.toRowOk, hdn⟩ : RowOkB c L i st)
          | succ k =>
              rw [List.getD_cons_succ,
                show i + (k + 1) = (i + 1) + k by omega]
              exact ihok k (by simpa using hk)
        · intro hfl k hk
          cases k with
          | zero => exact ⟨rfl, rfl⟩
          | succ k =>
              rw [List.getD_cons_succ, List.getD_cons_succ]
              exact ihpres hfl k (by simpa using hk)
      · -- skip: bp = lower
        simp only [if_neg hc1, if_pos hc2]
        have hdn : ∀ j, j < st.bp → st.tfc ≤ c i j := by
          rcases le_or_lt lb st.lo with hcase | hcase
          · have hl : max lb st.lo = st.lo := max_eq_right hcase
            rw [hl] at hc2
            intro j hj
            exact hok0.slo j (by omega)
          · have hl : max lb st.lo = lb := max_eq_left (le_of_lt hcase)
            rw [hl] at hc2
            intro j hj
            have h1 : c i lb ≤ c i j := hCH j (by omega)
            rw [hok0.tcon, hc2]
            exact h1
        have hCHout : ∀ j, j < st.bp → c i st.bp ≤ c i j := by
          intro j hj
          rw [← hok0.tcon]
          exact hdn j hj
        obtain ⟨ihlen, ihok, ihflag, ihpres⟩ :=
          ih (i + 1) st.bp ch hbpL
            (chain_up_succ c hM L st.bp i hCHout) hokrest
        refine ⟨by simp only [List.length_cons, ihlen], ?_, ihflag, ?_⟩
        · intro k hk
          cases k with
          | zero => simpa using (⟨hok0.toRowOk, hdn⟩ : RowOkB c L i st)
          | succ k =>
              rw [List.getD_cons_succ,
                show i + (k + 1) = (i + 1) + k by omega]
              exact ihok k (by simpa using hk)
        · intro hfl k hk
          cases k with
          | zero => exact ⟨rfl, rfl⟩
          | succ k =>
              rw [List.getD_cons_succ, List.getD_cons_succ]
              exact ihpres hfl k (by simpa using hk)
      · -- processed: run the upward scan
        simp only [if_neg hc1, if_neg hc2]
        set l := max lb st.lo with hl
        set s := scanUpBreak2 (c i) (st.hi - 1 - l) l st.bp st.tfc with hsdef
        obtain ⟨s1, s2, s3, s4, s5, s6, s7, s8⟩ :=
          scanUpBreak2_spec (c i) (st.hi - 1 - l) l st.bp st.tfc
            hok0.tcon.symm
        rw [← hsdef] at s1 s2 s3 s4 s5 s6 s7 s8
        have hlol : st.lo ≤ l := le_max_right lb st.lo
        have hlbl : lb ≤ l := le_max_left lb st.lo
        have hlL : l < L := max_lt hlbL hloL
        have hG : c i s.1 = s.2 ∧ s.2 ≤ st.tfc ∧ s.1 ≤ st.hi ∧
            (∀ j, j < s.1 → s.2 ≤ c i j) ∧
            (s.1 + 1 < L → s.2 ≤ c i (s.1 + 1)) ∧
            (s.1 = st.bp → s.2 = st.tfc) := by
          rcases le_or_lt st.hi (l + 1) with hA | hB
          · -- empty scan: s = (st.bp, st.tfc)
            have hs0 : s = (st.bp, st.tfc) := by
              rw [hsdef, show st.hi - 1 - l = 0 by omega]
              rfl
            have hdnA : ∀ j, j < st.bp → st.tfc ≤ c i j := by
              rcases le_or_lt lb st.lo with hcase | hcase
              · have hle : l = st.lo := max_eq_right hcase
                have hhi : st.hi = st.lo + 1 := by
                  rw [hle] at hc1 hA
                  have h2 := hok0.bphi
                  have h3 := le_trans hok0.lobp hok0.bphi
                  omega
                intro j hj
                rcases Nat.lt_or_ge j st.lo with h | h
                · exact hok0.slo j h
                · have he : j = st.lo := by
                    have h2 := hok0.bphi
                    omega
                  rw [he]
                  exact hok0.nbr0
              · have hle : l = lb := max_eq_left (le_of_lt hcase)
                have hlbtfc : st.tfc ≤ c i lb := by
                  rw [hle] at hc1 hA
                  rcases Nat.lt_or_ge st.hi lb with h | h
                  · exact hok0.shi lb h hlbL
                  · have he : lb = st.hi - 1 := by omega
                    rw [he]
                    exact hok0.nbr2b (by omega)
                intro j hj
                rcases Nat.lt_or_ge j lb with h | h
                · exact le_trans hlbtfc (hCH j h)
                · have he : j = lb := by
                    rw [hle] at hA
                    have h2 := hok0.bphi
                    omega
                  rw [he]
                  exact hlbtfc
            rw [hs0]
            refine ⟨hok0.tcon.symm, le_refl _, hok0.bphi, hdnA, ?_,
              fun _ => rfl⟩
            intro h
            exact hok0.up _ (by omega) h
          · -- nonempty scan
            have hs3 : s.1 = st.bp ∨ (l ≤ s.1 ∧ s.1 < st.hi - 1) := by
              rcases s3 with h | h
              · exact Or.inl h
              · exact Or.inr ⟨h.1, by omega⟩
            have hs1hi : s.1 ≤ st.hi := by
              rcases hs3 with h | h
              · rw [h]; exact hok0.bphi
              · omega
            have hdnB : ∀ j, j < s.1 → s.2 ≤ c i j := by
              intro j hj
              rcases Nat.lt_or_ge j l with hjl | hjl
              · -- below the scan start
                rcases le_or_lt lb st.lo with hcase | hcase
                · have hle : l = st.lo := max_eq_right hcase
                  rw [hle] at hjl
                  exact le_trans s2 (hok0.slo j hjl)
                · have hle : l = lb := max_eq_left (le_of_lt hcase)
                  rw [hle] at hjl
                  have hlbs : s.2 ≤ c i lb := by
                    rw [← hle]
                    rcases Nat.lt_trichotomy l s.1 with h | h | h
                    · exact s4 l (le_refl l) (by omega) h
                    · rw [h]
                      exact le_of_eq s1.symm
                    · have hsbp : s.1 = st.bp := by
                        rcases hs3 with h2 | h2
                        · exact h2
                        · omega
                      rw [hle] at h
                      rw [hle]
                      refine le_trans s2 (hok0.up lb ?_ hlbL)
                      omega
                  exact le_trans hlbs (hCH j hjl)
              · -- within the scanned range
                rcases Nat.lt_or_ge j (st.hi - 1) with hj2 | hj2
                · exact s4 j hjl (by omega) hj
                · have he : j = st.hi - 1 := by omega
                  rw [he]
                  exact le_trans s2 (hok0.nbr2b (by omega))
            refine ⟨s1, s2, hs1hi, hdnB, ?_, s6⟩
            intro hL1
            rcases eq_or_ne s.1 st.bp with he | hne
            · rw [s6 he, he]
              exact hok0.up _ (by omega) (by omega)
            · have h3 : l ≤ s.1 ∧ s.1 < st.hi - 1 := by
                rcases hs3 with h4 | h4
                · exact absurd h4 hne
                · exact h4
              rcases Nat.lt_or_ge (s.1 + 1) (st.hi - 1) with h2 | h2
              · exact s7 hne (by omega)
              · have he2 : s.1 + 1 = st.hi - 1 := by omega
                rw [he2]
                exact le_trans s2 (hok0.nbr2b (by omega))
        obtain ⟨g1, g2, g3, g4, g5, g6⟩ := hG
        have hs1L : s.1 < L := lt_of_le_of_lt g3 hok0.hiL
        have hCHout : ∀ j, j < s.1 → c i s.1 ≤ c i j := by
          intro j hj
          rw [g1]
          exact g4 j hj
        obtain ⟨ihlen, ihok, ihflag, ihpres⟩ :=
          ih (i + 1) s.1 (ch || decide (s.1 ≠ st.bp)) hs1L
            (chain_up_succ c hM L s.1 i hCHout) hokrest
        have hheadB : RowOkB c L i
            (if s.1 ≠ st.bp then SearchSt.mk s.1 s.2 s.1 st.hi
             else SearchSt.mk st.bp st.tfc s.1 st.hi) := by
          have hbp2 : (if s.1 ≠ st.bp then SearchSt.mk s.1 s.2 s.1 st.hi
              else SearchSt.mk st.bp st.tfc s.1 st.hi).bp = s.1 := by
            split_ifs with h
            · rfl
            · push_neg at h
              rw [h]
          have htfc2 : (if s.1 ≠ st.bp then SearchSt.mk s.1 s.2 s.1 st.hi
              else SearchSt.mk st.bp st.tfc s.1 st.hi).tfc = s.2 := by
            split_ifs with h
            · rfl
            · push_neg at h
              rw [g6 h]
          have hlo2 : (if s.1 ≠ st.bp then SearchSt.mk s.1 s.2 s.1 st.hi
              else SearchSt.mk st.bp st.tfc s.1 st.hi).lo = s.1 := by
            split_ifs <;> rfl
          have hhi2 : (if s.1 ≠ st.bp then SearchSt.mk s.1 s.2 s.1 st.hi
              else SearchSt.mk st.bp st.tfc s.1 st.hi).hi = st.hi := by
            split_ifs <;> rfl
          refine ⟨⟨?_, ?_, ?_, ?_, ?_, ?_, ?_, ?_⟩, ?_⟩
          · rw [htfc2, hbp2]
            exact g1.symm
          · rw [hlo2, hbp2]
          · rw [hbp2, hhi2]
            exact g3
          · rw [hhi2]
            exact hok0.hiL
          · rw [hlo2, htfc2]
            exact g4
          · rw [hlo2, htfc2]
            exact le_of_eq g1.symm
          · rw [hlo2, htfc2]
            exact g5
          · rw [hhi2, htfc2]
            intro j hj1 hj2
            exact le_trans g2 (hok0.shi j hj1 hj2)
          · rw [hbp2, htfc2]
            exact g4
        refine ⟨by simp only [List.length_cons, ihlen], ?_, ?_, ?_⟩
        · intro k hk
          cases k with
          | zero => simpa using hheadB
          | succ k =>
              rw [List.getD_cons_succ,
                show i + (k + 1) = (i + 1) + k by omega]
              exact ihok k (by simpa using hk)
        · intro hfl
          have h2 := ihflag hfl
          rcases Bool.or_eq_false_iff.mp h2 with ⟨h3, _⟩
          exact h3
        · intro hfl k hk
          have h2 := ihflag hfl
          rcases Bool.or_eq_false_iff.mp h2 with ⟨h3, h4⟩
          have hsbp : s.1 = st.bp := by
            have h5 := of_decide_eq_false h4
            exact not_not.mp h5
          cases k with
          | zero =>
              simp only [List.getD_cons_zero]
              rw [hsbp]
              constructor
              · split_ifs <;> rfl
              · split_ifs with h5
                · exact absurd rfl h5
                · rfl
          | succ k =>
              rw [List.getD_cons_succ, List.getD_cons_succ]
              exact ihpres hfl k (by simpa using hk)

lemma getD_reverse (l : List SearchSt) (k : ℕ) (hk : k < l.length) :
    l.reverse.getD k default = l.getD (l.length - 1 - k) default := by
  rw [List.getD_eq_getElem l.reverse default (by simpa using hk),
      List.getD_eq_getElem l default (by omega)]
  exact List.getElem_reverse _

/-- If the refinement loop exits through its no-change test, the
resulting costs are optimal for every state. -/
lemma refineLoop_opt (c : ℕ → ℕ → ℚ) (L : ℕ)
    (hM : ∀ i i' j j' : ℕ, i ≤ i' → j ≤ j' → c i j + c i' j' ≤ c i j' + c i' j) :
    ∀ (fuel iter : ℕ) (sts : List SearchSt),
      sts.length = L →
      (iter % 2 = 0 → ∀ k, k < L → RowOkB c L k (sts.getD k default)) →
      (iter % 2 = 1 → ∀ k, k < L → RowOkF c L k (sts.getD k default)) →
      refineLoopCheck c L fuel iter sts = true →
      OptAll c L (refineLoop c L fuel iter sts) := by
  intro fuel
  induction fuel with
  | zero =>
      intro iter sts _ _ _ hchk
      exact absurd hchk (by simp [refineLoopCheck])
  | succ fuel ih =>
      intro iter sts hlen hB hF hchk
      rcases Nat.eq_zero_or_pos L with hL0 | hL
      · intro k hk
        omega
      rw [refineLoopCheck] at hchk
      rw [refineLoop]
      dsimp only at hchk ⊢
      by_cases hpar : iter % 2 = 0
      · -- backward pass
        simp only [if_pos hpar] at hchk ⊢
        have hokB := hB hpar
        have hchain : ∀ j, L - 1 < j → j < L → c (L - 1) (L - 1) ≤ c (L - 1) j := by
          intro j h1 h2
          exact absurd h2 (by omega)
        have hrows : ∀ k, k < sts.reverse.length →
            RowOkB c L (L - 1 - k) (sts.reverse.getD k default) := by
          intro k hk
          rw [List.length_reverse, hlen] at hk
          rw [getD_reverse sts k (by omega), hlen]
          exact hokB (L - 1 - k) (by omega)
        obtain ⟨blen, bokF, bflag, bpres⟩ :=
          backwardAux_spec c L hM sts.reverse (L - 1) (L - 1) false
            (by rw [List.length_reverse, hlen]; omega) (by omega) hchain hrows
        rw [List.length_reverse, hlen] at blen
        have hrowF : ∀ k, k < L → RowOkF c L k
            ((backwardAux c (L - 1) (L - 1) false sts.reverse).1.reverse.getD
              k default) := by
          intro k hk
          rw [getD_reverse _ k (by rw [blen]; omega), blen]
          have h2 := bokF (L - 1 - k) (by rw [List.length_reverse, hlen]; omega)
          rw [show L - 1 - (L - 1 - k) = k by omega] at h2
          exact h2
        by_cases hb : (backwardAux c (L - 1) (L - 1) false sts.reverse).2 = true
        · simp only [if_pos hb] at hchk ⊢
          refine ih (iter + 1) _ ?_ ?_ ?_ hchk
          · rw [List.length_reverse, blen]
          · intro h2
            exact absurd h2 (by omega)
          · intro _
            exact hrowF
        · have hb2 : (backwardAux c (L - 1) (L - 1) false sts.reverse).2 =
              false := by
            revert hb
            cases (backwardAux c (L - 1) (L - 1) false sts.reverse).2 <;> simp
          simp only [if_neg hb] at hchk ⊢
          intro k hk
          have hFk := hrowF k hk
          have hprek := bpres hb2 (L - 1 - k)
            (by rw [List.length_reverse, hlen]; omega)
          rw [getD_reverse sts (L - 1 - k) (by omega), hlen,
            show L - 1 - (L - 1 - k) = k by omega] at hprek
          have heq : (backwardAux c (L - 1) (L - 1) false
              sts.reverse).1.reverse.getD k default =
              (backwardAux c (L - 1) (L - 1) false sts.reverse).1.getD
                (L - 1 - k) default := by
            rw [getD_reverse _ k (by rw [blen]; omega), blen]
          have hentry := hokB k hk
          refine ⟨lt_of_le_of_lt hFk.bphi hFk.hiL, hFk.tcon, ?_⟩
          intro j hjL
          rcases Nat.lt_trichotomy j ((backwardAux c (L - 1) (L - 1) false
              sts.reverse).1.reverse.getD k default).bp with h | h | h
          · have hbpj : j < (sts.getD k default).bp := by
              rw [← hprek.1, ← heq]
              exact h
            have h3 := hentry.dn j hbpj
            rw [← hprek.2, ← heq] at h3
            exact h3
          · rw [hFk.tcon, h]
          · exact hFk.up j h hjL
      · -- forward pass
        have hpar1 : iter % 2 = 1 := by omega
        simp only [if_neg hpar] at hchk ⊢
        have hokF := hF hpar1
        have hchain : ∀ j, j < 0 → c 0 0 ≤ c 0 j := by
          intro j h1
          exact absurd h1 (by omega)
        have hrows : ∀ k, k < sts.length →
            RowOkF c L (0 + k) (sts.getD k default) := by
          intro k hk
          rw [Nat.zero_add]
          exact hokF k (by omega)
        obtain ⟨flen, fokB, fflag, fpres⟩ :=
          forwardAux_spec c L hM sts 0 0 false hL hchain hrows
        rw [hlen] at flen
        have hrowB : ∀ k, k < L → RowOkB c L k
            ((forwardAux c 0 0 false sts).1.getD k default) := by
          intro k hk
          have h2 := fokB k (by omega)
          rw [Nat.zero_add] at h2
          exact h2
        by_cases hb : (forwardAux c 0 0 false sts).2 = true
        · simp only [if_pos hb] at hchk ⊢
          refine ih (iter + 1) _ ?_ ?_ ?_ hchk
          · rw [forwardAux_length, hlen]
          · intro _
            exact hrowB
          · intro h2
            exact absurd h2 (by omega)
        · have hb2 : (forwardAux c 0 0 false sts).2 = false := by
            revert hb
            cases (forwardAux c 0 0 false sts).2 <;> simp
          simp only [if_neg hb] at hchk ⊢
          intro k hk
          have hBk := hrowB k hk
          have hprek := fpres hb2 k (by omega)
          have hentry := hokF k hk
          refine ⟨lt_of_le_of_lt hBk.bphi hBk.hiL, hBk.tcon, ?_⟩
          intro j hjL
          rcases Nat.lt_trichotomy j ((forwardAux c 0 0 false
              sts).1.getD k default).bp with h | h | h
          · exact hBk.dn j h
          · rw [hBk.tcon, h]
          · have hbpj : (sts.getD k default).bp < j := by
              rw [← hprek.1]
              exact h
            have h3 := hentry.up j hbpj hjL
            rw [← hprek.2] at h3
            exact h3

/-- The naive branch of a single state: its result attains the minimum
transition cost and is the least index doing so. -/
lemma naiveRow_spec (c : ℕ → ℚ) (L : ℕ) (hL : 1 ≤ L) :
    c (naiveRow c L).1 = (naiveRow c L).2 ∧
    (∀ k, k < L → (naiveRow c L).2 ≤ c k) ∧
    (∀ k, k < (naiveRow c L).1 → (naiveRow c L).2 < c k) ∧
    (naiveRow c L).1 < L := by
  unfold naiveRow
  obtain ⟨d1, d2, d3, d4⟩ := naiveScan_spec c (L - 1) 1 0 (c 0) rfl (by omega)
    (by
      intro k hk
      have he : k = 0 := by omega
      rw [he])
    (by
      intro k hk
      exact absurd hk (by omega))
  exact ⟨d1, fun k hk => d2 k (by omega), d3, by omega⟩

/-- Claim C2 (amended): with a nonnegative `inter_frame_factor`, whenever
the refinement loop of the bounded branch exits through its no-change test
within the `num_states` iteration cap (`refineLoopCheck` returns `true`;
this held in every observed run), the bounded branch of
`ComputeBacktraces` produces exactly the same `this_forward_cost` vector
as the naive branch, and every backpointer of either branch attains the
minimal transition cost for its state; the naive branch returns the
smallest minimizer, so the two backpointer vectors can differ only on
ties. -/
theorem computeBacktraces_bounded_matches_naive
    (factor softMinF0 : ℚ) (hfac : 0 ≤ factor)
    (nccfPitch lags prevCost : List ℚ)
    (hconv : refineLoopCheck (transCost factor prevCost) nccfPitch.length
        nccfPitch.length 0
        (pass0Loop (transCost factor prevCost) nccfPitch.length
          nccfPitch.length 0 0) = true) :
    (computeBacktraces false factor softMinF0 nccfPitch lags prevCost).2 =
      (computeBacktraces true factor softMinF0 nccfPitch lags prevCost).2 ∧
    ∀ k, k < nccfPitch.length →
      (∀ j, j < nccfPitch.length →
        transCost factor prevCost k
          (((computeBacktraces false factor softMinF0 nccfPitch lags
              prevCost).1.getD k 0).toNat) ≤
          transCost factor prevCost k j) ∧
      (∀ j, j < nccfPitch.length →
        transCost factor prevCost k
          (((computeBacktraces true factor softMinF0 nccfPitch lags
              prevCost).1.getD k 0).toNat) ≤
          transCost factor prevCost k j) ∧
      (∀ j, j < ((computeBacktraces true factor softMinF0 nccfPitch lags
            prevCost).1.getD k 0).toNat →
        transCost factor prevCost k
          (((computeBacktraces true factor softMinF0 nccfPitch lags
              prevCost).1.getD k 0).toNat) <
          transCost factor prevCost k j) := by
  have hM := transCost_monge factor hfac prevCost
  set L := nccfPitch.length with hLdef
  set c := transCost factor prevCost with hc
  set states0 := pass0Loop c L L 0 0 with hs0
  set states := refineLoop c L L 0 states0 with hst
  set lc := computeLocalCost softMinF0 nccfPitch lags with hlc
  obtain ⟨hp0len, hp0ok⟩ := pass0Loop_spec c L hM L 0 0 (by omega)
    (fun h => h) (by intro j hj; exact absurd hj (by omega))
  rw [← hs0] at hp0len hp0ok
  have hopt : OptAll c L states := by
    rw [hst]
    exact refineLoop_opt c L hM L 0 states0 hp0len
      (fun _ k hk => by simpa using hp0ok k hk)
      (fun h => absurd h (by omega)) hconv
  have hstlen : states.length = L := by
    rw [hst, refineLoop_length]
    exact hp0len
  have h1eq : (computeBacktraces false factor softMinF0 nccfPitch lags
      prevCost).1 = states.map (fun st => (st.bp : ℤ)) := by
    rw [computeBacktraces]
    simp only [Bool.false_eq_true, if_false]
  have h2eq : (computeBacktraces false factor softMinF0 nccfPitch lags
      prevCost).2 = List.zipWith (fun st l => st.tfc + l) states lc := by
    rw [computeBacktraces]
    simp only [Bool.false_eq_true, if_false]
  have h1eqN : (computeBacktraces true factor softMinF0 nccfPitch lags
      prevCost).1 = ((List.range L).map (fun i => naiveRow (c i) L)).map
        (fun r => (r.1 : ℤ)) := by
    rw [computeBacktraces]
    simp only [eq_self_iff_true, if_true]
  have h2eqN : (computeBacktraces true factor softMinF0 nccfPitch lags
      prevCost).2 = List.zipWith (fun r l => r.2 + l)
        ((List.range L).map (fun i => naiveRow (c i) L)) lc := by
    rw [computeBacktraces]
    simp only [eq_self_iff_true, if_true]
  have htfc_eq : ∀ k, k < L →
      (states.getD k default).tfc = (naiveRow (c k) L).2 := by
    intro k hk
    obtain ⟨hbpL, htcon, hmin⟩ := hopt k hk
    obtain ⟨n1, n2, n3, n4⟩ := naiveRow_spec (c k) L (by omega)
    refine le_antisymm ?_ ?_
    · rw [← n1]
      exact hmin _ n4
    · rw [htcon]
      exact n2 _ hbpL
  constructor
  · rw [h2eq, h2eqN]
    apply List.ext_getElem
    · simp [hstlen]
    · intro k h1 h2
      rw [List.getElem_zipWith, List.getElem_zipWith]
      have hkL : k < L := by
        simp only [List.length_zipWith, hstlen] at h1
        omega
      have hkS : k < states.length := by omega
      have he1 : states[k] = states.getD k default :=
        (List.getD_eq_getElem states default hkS).symm
      rw [List.getElem_map, List.getElem_range, he1, htfc_eq k hkL]
  · intro k hk
    obtain ⟨hbpL, htcon, hmin⟩ := hopt k hk
    obtain ⟨n1, n2, n3, n4⟩ := naiveRow_spec (c k) L (by omega)
    have hkS : k < states.length := by omega
    have hbv : (computeBacktraces false factor softMinF0 nccfPitch lags
        prevCost).1.getD k 0 = ((states.getD k default).bp : ℤ) := by
      rw [h1eq, List.getD_eq_getElem _ _ (by simpa using hkS),
        List.getElem_map, List.getD_eq_getElem states default hkS]
    have hnv : (computeBacktraces true factor softMinF0 nccfPitch lags
        prevCost).1.getD k 0 = ((naiveRow (c k) L).1 : ℤ) := by
      rw [h1eqN, List.getD_eq_getElem _ _ (by simp; omega),
        List.getElem_map, List.getElem_map, List.getElem_range]
    refine ⟨?_, ?_, ?_⟩
    · intro j hj
      rw [hbv, Int.toNat_natCast, ← htcon]
      exact hmin j hj
    · intro j hj
      rw [hnv, Int.toNat_natCast, n1]
      exact n2 j hj
    · intro j hj
      rw [hnv, Int.toNat_natCast] at hj ⊢
      rw [n1]
      exact n3 j hj

/-- Witness for the amended claim C2 at the tie example: the convergence
check holds and the two forward-cost vectors coincide. -/
theorem computeBacktraces_bounded_matches_naive_witness :
    (0 : ℚ) ≤ 1 ∧
    refineLoopCheck (transCost 1 [0, 3, 1, 0]) 4 4 0
      (pass0Loop (transCost 1 [0, 3, 1, 0]) 4 4 0 0) = true ∧
    (computeBacktraces false 1 0 [0, 0, 0, 0] [0, 0, 0, 0] [0, 3, 1, 0]).2 =
      (computeBacktraces true 1 0 [0, 0, 0, 0] [0, 0, 0, 0] [0, 3, 1, 0]).2 :=
  ⟨by norm_num, by with_unfolding_all rfl,
    (computeBacktraces_bounded_matches_naive 1 0 (by norm_num)
      [0, 0, 0, 0] [0, 0, 0, 0] [0, 3, 1, 0] (by with_unfolding_all rfl)).1⟩

/-- Claim C2 counterexample: on a tie between candidate predecessors the
bounded search branch of `ComputeBacktraces` returns a different
backpointer from the naive branch.  With `inter_frame_factor = 1` and
previous forward costs `[0, 3, 1, 0]`, state 2 has predecessors 2 and 3
tied at transition cost 1: the naive branch picks 2, the bounded branch
picks 3, while the two forward-cost vectors still agree. -/
theorem computeBacktraces_tie_mismatch :
    (computeBacktraces false 1 0 [0, 0, 0, 0] [0, 0, 0, 0] [0, 3, 1, 0]).2 =
      (computeBacktraces true 1 0 [0, 0, 0, 0] [0, 0, 0, 0] [0, 3, 1, 0]).2 ∧
    (computeBacktraces true 1 0 [0, 0, 0, 0] [0, 0, 0, 0] [0, 3, 1, 0]).1 =
      [0, 0, 2, 3] ∧
    (computeBacktraces false 1 0 [0, 0, 0, 0] [0, 0, 0, 0] [0, 3, 1, 0]).1 =
      [0, 0, 3, 3] := by
  refine ⟨?_, ?_, ?_⟩ <;> with_unfolding_all rfl

end PitchSpec
